import Mathlib

/-!
# Verification of the subtitle-hunter acquisition-and-placement pipeline

A shallow embedding of the Go sources of `leeourand/subtitle-hunter`:

* `internal/subtitle/parser.go` — the SRT codec (`Parse`, `Format`),
  the per-entry translation loop (`TranslateEntries`) and its bounded
  retry policy (`translateWithRetry`);
* `internal/jellyfin/client.go` — the discovery filter
  (`hasChineseSubtitle`, `fileExists`, `GetMediaWithoutChineseSubtitles`)
  and the search-query builder (`GetSearchQuery`);
* `config/config.go` — the path-prefix mapping (`MapJellyfinPathToContainer`);
* `internal/handlers/web.go` — save-path resolution (`generateSubtitlePath`,
  `canWriteToDirectory`), the two save routines and the processing
  dispatch of `ProcessHandler`;
* `internal/opensubtitles/client.go` — `FindBestSubtitle`.

Go strings are modelled as `List Char` (`Str`).  Go standard-library
collaborators (`strings.Split`, `strings.TrimSpace`, `strconv.Atoi`,
`regexp` matching of the fixed timing pattern, `path/filepath` helpers)
are embedded semantically: each Lean definition reproduces the observable
behaviour of the library call on the arguments the program passes.
Filesystem, HTTP and translation backends are opaque collaborators and
appear as explicit oracle parameters.  Whitespace classification models
`unicode.IsSpace` on the Latin-1 range, which covers SRT content; the
`filepath` model does not re-implement lexical `Clean` of `.`/`..`
components, which the pipeline never produces.
-/

namespace SubtitleHunter

/-- Go strings, as lists of characters. -/
abbrev Str := List Char

/-- `unicode.IsSpace` (Latin-1 range): the character class trimmed by
`strings.TrimSpace`. -/
def goIsSpace (c : Char) : Bool :=
  decide (c = ' ' ∨ c = Char.ofNat 9 ∨ c = Char.ofNat 10 ∨ c = Char.ofNat 11 ∨
    c = Char.ofNat 12 ∨ c = Char.ofNat 13 ∨ c = Char.ofNat 133 ∨ c = Char.ofNat 160)

/-- The character class of `\s` in Go's regexp (RE2): `[\t\n\f\r ]`. -/
def reSpace (c : Char) : Bool :=
  decide (c = ' ' ∨ c = Char.ofNat 9 ∨ c = Char.ofNat 10 ∨ c = Char.ofNat 12 ∨
    c = Char.ofNat 13)

/-- `strings.TrimSpace`: drop leading and trailing whitespace. -/
def trimSpace (s : Str) : Str :=
  ((s.dropWhile goIsSpace).reverse.dropWhile goIsSpace).reverse

/-- `strings.ReplaceAll(text, "\r\n", "\n")`: left-to-right, non-overlapping. -/
def normalizeCRLF : Str → Str
  | [] => []
  | [c] => [c]
  | c1 :: c2 :: rest =>
    if c1 = '\r' ∧ c2 = '\n' then '\n' :: normalizeCRLF rest
    else c1 :: normalizeCRLF (c2 :: rest)

/-- Prepend a character to the first piece of a split result. -/
def consHead (c : Char) : List Str → List Str
  | [] => [[c]]
  | h :: t => (c :: h) :: t

/-- `strings.Split(text, "\n\n")`: leftmost, non-overlapping separator scan. -/
def splitNN : Str → List Str
  | [] => [[]]
  | [c] => [[c]]
  | c1 :: c2 :: rest =>
    if c1 = '\n' ∧ c2 = '\n' then [] :: splitNN rest
    else consHead c1 (splitNN (c2 :: rest))

/-- `strings.Split(block, "\n")`. -/
def splitNL : Str → List Str
  | [] => [[]]
  | c :: rest =>
    if c = '\n' then [] :: splitNL rest else consHead c (splitNL rest)

/-- `strings.Join(lines, "\n")`. -/
def joinNL : List Str → Str
  | [] => []
  | [l] => l
  | l :: l2 :: rest => l ++ '\n' :: joinNL (l2 :: rest)

/-- Join with the `"\n\n"` separator (for reassembling block lists). -/
def joinNN : List Str → Str
  | [] => []
  | [l] => l
  | l :: l2 :: rest => l ++ '\n' :: '\n' :: joinNN (l2 :: rest)

/-- Decimal digit accumulation used to read an integer literal. -/
def digitsToNat (l : Str) : Nat :=
  l.foldl (fun a c => a * 10 + (c.toNat - 48)) 0

/-- The digits-and-range part of `strconv.Atoi`: at least one ASCII digit,
value within the 64-bit signed range. -/
def goAtoiDigits (digits : Str) (neg : Bool) : Option Int :=
  if digits = [] then none
  else if digits.all Char.isDigit then
    let v : Nat := digitsToNat digits
    if neg then (if v ≤ 2 ^ 63 then some (-(v : Int)) else none)
    else (if v + 1 ≤ 2 ^ 63 then some ((v : Int)) else none)
  else none

/-- `strconv.Atoi`: optional sign, ASCII digits, 64-bit range; `none` is the
error result. -/
def goAtoi (s : Str) : Option Int :=
  match s with
  | [] => none
  | c :: rest =>
    if c = '-' then goAtoiDigits rest true
    else if c = '+' then goAtoiDigits rest false
    else goAtoiDigits s false

/-- One timestamp of the timing pattern: `\d{2}:\d{2}:\d{2},\d{3}` matched at
the head of the input; returns the captured 12 characters and the rest. -/
def matchTsAt : Str → Option (Str × Str)
  | c1 :: c2 :: c3 :: c4 :: c5 :: c6 :: c7 :: c8 :: c9 :: c10 :: c11 :: c12 :: rest =>
    if c1.isDigit ∧ c2.isDigit ∧ c3 = ':' ∧ c4.isDigit ∧ c5.isDigit ∧ c6 = ':' ∧
        c7.isDigit ∧ c8.isDigit ∧ c9 = ',' ∧ c10.isDigit ∧ c11.isDigit ∧ c12.isDigit
    then some ([c1, c2, c3, c4, c5, c6, c7, c8, c9, c10, c11, c12], rest)
    else none
  | _ => none

/-- The timing pattern `(\d{2}:\d{2}:\d{2},\d{3})\s*-->\s*(\d{2}:\d{2}:\d{2},\d{3})`
matched at the head of the input; returns the two captured groups. -/
def matchTimingAt (s : Str) : Option (Str × Str) :=
  match matchTsAt s with
  | none => none
  | some (ts1, r1) =>
    let r2 := r1.dropWhile reSpace
    if r2.take 3 = ['-', '-', '>'] then
      match matchTsAt ((r2.drop 3).dropWhile reSpace) with
      | none => none
      | some (ts2, _) => some (ts1, ts2)
    else none

/-- `timeRegex.FindStringSubmatch`: leftmost match of the timing pattern
anywhere in the line; returns the two captured timestamps. -/
def findTiming : Str → Option (Str × Str)
  | [] => none
  | c :: rest =>
    match matchTimingAt (c :: rest) with
    | some r => some r
    | none => findTiming rest

/-- `subtitle.SubtitleEntry` (parser.go). -/
structure SubtitleEntry where
  index : Int
  startTime : Str
  endTime : Str
  text : Str
deriving DecidableEq, Repr

/-- The per-block body of the loop in `SRTParser.Parse` (parser.go:34-64):
trim the block, require at least three lines, an integer first line and a
timing match on the second line; `none` models `continue`. -/
def blockParse (block : Str) : Option SubtitleEntry :=
  let b := trimSpace block
  if b = [] then none
  else
    match splitNL b with
    | l0 :: l1 :: l2 :: rest =>
      match goAtoi (trimSpace l0) with
      | none => none
      | some idx =>
        match findTiming l1 with
        | none => none
        | some (st, en) =>
          some ⟨idx, st, en, trimSpace (joinNL (l2 :: rest))⟩
    | _ => none

/-- `SRTParser.Parse` (parser.go:25-67): normalize line endings, split on
blank lines, keep the blocks that parse; the error result is always `nil`. -/
def Parse (content : Str) : List SubtitleEntry × Option Str :=
  ((splitNN (normalizeCRLF content)).filterMap blockParse, none)

/-- The ` --> ` separator written by `Format`. -/
def arrowSep : Str := [' ', '-', '-', '>', ' ']

/-- `fmt` rendering of a Go `int` (`%d`). -/
def intToChars (n : Int) : Str := (toString n).data

/-- The bytes `Format` writes for one entry (including its trailing newline). -/
def entryChunk (e : SubtitleEntry) : Str :=
  intToChars e.index ++ '\n' :: (e.startTime ++ arrowSep ++ e.endTime) ++ '\n' :: (e.text ++ ['\n'])

/-- `SRTParser.Format` (parser.go:69-84): entries separated by a blank line. -/
def Format (entries : List SubtitleEntry) : Str :=
  joinNL (entries.map entryChunk)

/-! ## Bounded-retry translation (parser.go:86-134)

The translation backend is an oracle indexed by the entry text and the
1-based attempt number, so that a backend whose answers vary between
attempts (the stateful Go interface) is representable.  `none` models a
non-nil error from `TranslateToChineseTraditional`. -/

/-- The translation backend oracle: text and attempt number to result. -/
def Translator := Str → Nat → Option Str

/-- The observable behaviour of one `translateWithRetry` call: its result
(`none` is the error return), the number of calls made to the backend, and
the `time.Sleep` durations in seconds, in order. -/
structure RetryTrace where
  result : Option Str
  attempts : Nat
  waits : List Nat
deriving DecidableEq, Repr

/-- The loop of `translateWithRetry` (parser.go:116-131) from a given
attempt number with the given number of iterations left: before every
attempt but the first, sleep `attempt - 1` seconds; return on the first
success. -/
def retryFrom (tr : Translator) (text : Str) (attempt : Nat) : Nat → RetryTrace
  | 0 => ⟨none, 0, []⟩
  | remaining + 1 =>
    let ws : List Nat := if 1 < attempt then [attempt - 1] else []
    match tr text attempt with
    | some r => ⟨some r, 1, ws⟩
    | none =>
      let rest := retryFrom tr text (attempt + 1) remaining
      ⟨rest.result, rest.attempts + 1, ws ++ rest.waits⟩

/-- `SRTParser.translateWithRetry` (parser.go:113-134). -/
def translateWithRetry (tr : Translator) (text : Str) (maxRetries : Nat) : RetryTrace :=
  retryFrom tr text 1 maxRetries

/-- `SRTParser.TranslateEntries` (parser.go:86-111): translate each entry's
text with up to 3 attempts, fall back to the original text on failure, and
always return a nil error. -/
def TranslateEntries (entries : List SubtitleEntry) (tr : Translator) :
    List SubtitleEntry × Option Str :=
  (entries.map fun e =>
      { index := e.index, startTime := e.startTime, endTime := e.endTime,
        text := ((translateWithRetry tr e.text 3).result).getD e.text },
    none)

/-! ## path/filepath helpers (semantic model)

`goDir` and `goJoin` do not re-run lexical `Clean` over `.`/`..`
components; on the slash-separated paths the pipeline builds they agree
with `filepath.Dir` and `filepath.Join`. -/

/-- Remove trailing `/` characters. -/
def dropTrailingSlashes (p : Str) : Str :=
  (p.reverse.dropWhile (fun c => c = '/')).reverse

/-- `filepath.Base`. -/
def goBase (p : Str) : Str :=
  if p = [] then ['.']
  else
    let q := dropTrailingSlashes p
    if q = [] then ['/'] else (q.reverse.takeWhile (fun c => ¬ c = '/')).reverse

/-- `filepath.Ext`: the suffix from the final dot in the final element. -/
def goExt (p : Str) : Str :=
  let revTail := p.reverse.takeWhile (fun c => ¬ c = '/')
  let revExt := revTail.takeWhile (fun c => ¬ c = '.')
  if revExt.length = revTail.length then [] else (revExt ++ ['.']).reverse

/-- `strings.TrimSuffix`. -/
def goTrimSuffix (s suffix : Str) : Str :=
  if suffix.isSuffixOf s then s.take (s.length - suffix.length) else s

/-- `filepath.Dir`: everything before the final element, without the
trailing slash (root and the empty path excepted). -/
def goDir (p : Str) : Str :=
  let withSlash := (p.reverse.dropWhile (fun c => ¬ c = '/')).reverse
  let d := dropTrailingSlashes withSlash
  if d = [] then (if withSlash = [] then ['.'] else ['/']) else d

/-- `filepath.Join` of two elements. -/
def goJoin (a b : Str) : Str :=
  if a = [] then b
  else if a.getLast? = some '/' then a ++ b
  else a ++ '/' :: b

/-- The first-occurrence scan of `strings.Replace(s, old, new, 1)` for a
non-empty pattern. -/
def replace1Aux (old new : Str) : Str → Str
  | [] => []
  | c :: rest =>
    if old.isPrefixOf (c :: rest) then new ++ (c :: rest).drop old.length
    else c :: replace1Aux old new rest

/-- `strings.Replace(s, old, new, 1)`. -/
def goReplace1 (s old new : Str) : Str :=
  if old = [] then new ++ s else replace1Aux old new s

/-! ## Configuration and path mapping (config/config.go) -/

/-- The fields of `config.Config` the pipeline reads. -/
structure Config where
  SubtitleDirectory : Str
  EnableDirectSave : Bool
  JellyfinPathPrefix : Str
  ContainerPathPrefix : Str

/-- `Config.MapJellyfinPathToContainer` (config.go:60-73). -/
def MapJellyfinPathToContainer (c : Config) (jellyfinPath : Str) : Str :=
  if c.JellyfinPathPrefix = [] ∨ c.ContainerPathPrefix = [] then jellyfinPath
  else if c.JellyfinPathPrefix.isPrefixOf jellyfinPath then
    goReplace1 jellyfinPath c.JellyfinPathPrefix c.ContainerPathPrefix
  else jellyfinPath

/-! ## Catalog data model and discovery filter (internal/jellyfin/client.go) -/

/-- One embedded stream descriptor of `jellyfin.MediaItem.MediaStreams`. -/
structure MediaStream where
  type : Str
  language : Str
  codec : Str
  isExternal : Bool
deriving DecidableEq, Repr

/-- `jellyfin.MediaItem` (client.go:20-39); `mediaSources` keeps the `Path`
field of each media source. -/
structure MediaItem where
  id : Str
  name : Str
  type : Str
  path : Str
  seriesName : Str
  seasonName : Str
  indexNumber : Int
  parentIndexNumber : Int
  productionYear : Int
  mediaSources : List Str
  mediaStreams : List MediaStream
deriving DecidableEq, Repr

/-- `Client.fileExists` (client.go:122-124): permanently `false`. -/
def fileExists (_path : Str) : Bool := false

/-- `Client.hasChineseSubtitle` (client.go:94-120): a subtitle stream with a
language tag in `{zh-TW, zh-Hant, chi}`, or a sidecar file next to the
first media source (the latter via the stubbed `fileExists`). -/
def hasChineseSubtitle (item : MediaItem) : Bool :=
  (item.mediaStreams.any fun s =>
    decide (s.type = "Subtitle".data ∧
      (s.language = "zh-TW".data ∨ s.language = "zh-Hant".data ∨ s.language = "chi".data)))
  ||
  (match item.mediaSources with
   | [] => false
   | videoPath :: _ =>
     let dir := goDir videoPath
     let base := goTrimSuffix (goBase videoPath) (goExt videoPath)
     [goJoin dir (base ++ ".zh-Hant.srt".data),
      goJoin dir (base ++ ".zh-TW.srt".data),
      goJoin dir (base ++ ".chi.srt".data)].any fileExists)

/-- The filtering step of `Client.GetMediaWithoutChineseSubtitles`
(client.go:84-91): keep the items without the subtitle. -/
def GetMediaWithoutChineseSubtitles (items : List MediaItem) : List MediaItem :=
  items.filter (fun i => ! hasChineseSubtitle i)

/-- `fmt.Sprintf("%02d", n)`: zero-pad the decimal rendering to width 2. -/
def goSprintf02d (n : Int) : Str :=
  let s := intToChars n
  if s.length = 1 then '0' :: s else s

/-- `Client.GetSearchQuery` (client.go:200-217). -/
def GetSearchQuery (item : MediaItem) : Str :=
  if item.type = "Episode".data then
    if ¬ item.seriesName = [] then
      item.seriesName ++ ' ' :: 'S' ::
        goSprintf02d item.parentIndexNumber ++ 'E' :: goSprintf02d item.indexNumber
    else item.name
  else if item.type = "Movie".data then
    if 0 < item.productionYear then item.name ++ ' ' :: intToChars item.productionYear
    else item.name
  else item.name

/-! ## Subtitle provider (internal/opensubtitles/client.go) -/

/-- `opensubtitles.Subtitle` (the fields the pipeline reads). -/
structure Subtitle where
  id : Str
  fileID : Int
  language : Str
  fileName : Str
deriving DecidableEq, Repr

/-- `Client.FindBestSubtitle` (client.go:181-193), over a search oracle
returning the provider's candidate list or an error: propagate search
errors, fail on an empty list, otherwise return the first candidate. -/
def FindBestSubtitle (search : Str → Str → List Subtitle × Option Str)
    (movieName language : Str) : Option Subtitle × Option Str :=
  match search movieName language with
  | (_, some e) => (none, some e)
  | (subs, none) =>
    match subs with
    | [] => (none, some "no subtitles found".data)
    | s :: _ => (some s, none)

/-! ## Save-path resolution and processing dispatch (internal/handlers/web.go) -/

/-- Filesystem oracle for the writability probe: `os.Stat` existence,
`os.MkdirAll` success and `os.Create` success per path. -/
structure Fs where
  dirExists : Str → Bool
  mkdirOk : Str → Bool
  createOk : Str → Bool

/-- The probe marker file name used by `canWriteToDirectory`. -/
def writeTestFile : Str := ".subtitle-hunter-write-test".data

/-- `Handler.canWriteToDirectory` (web.go:546-567): create the directory if
absent, then create and remove a marker file. -/
def canWriteToDirectory (fs : Fs) (dirPath : Str) : Bool :=
  if ¬ fs.dirExists dirPath ∧ ¬ fs.mkdirOk dirPath then false
  else fs.createOk (goJoin dirPath writeTestFile)

/-- `Handler.generateSubtitlePath` (web.go:515-544): the resolved file path,
the location class string (`media` or `downloads`), and the list of
`os.MkdirAll` calls this function itself issues (the fallback branch
creates the downloads directory unconditionally, errors only logged). -/
def generateSubtitlePath (cfg : Config) (fs : Fs) (videoPath language : Str) :
    Str × Str × List Str :=
  let base := goTrimSuffix (goBase videoPath) (goExt videoPath)
  let fileName := base ++ '.' :: language ++ ".srt".data
  let fallback : Str × Str × List Str :=
    (goJoin cfg.SubtitleDirectory fileName, "downloads".data, [cfg.SubtitleDirectory])
  if cfg.EnableDirectSave then
    let mediaDir := goDir (MapJellyfinPathToContainer cfg videoPath)
    if canWriteToDirectory fs mediaDir then
      (goJoin mediaDir fileName, "media".data, [])
    else fallback
  else fallback

/-- The collaborators of the processing handler: provider search and
download, the write outcome per (path, content), the filesystem probe
oracle, the configuration and the translation backend. -/
structure WebEnv where
  search : Str → Str → List Subtitle × Option Str
  download : Subtitle → Option Str
  writeOk : Str → Str → Bool
  fs : Fs
  cfg : Config
  translator : Translator

/-- `Handler.downloadAndSaveSubtitle` (web.go:465-478): download, resolve
the save path, write.  Returns the location class (or `none` on error) and
the `os.WriteFile` calls attempted. -/
def downloadAndSaveSubtitle (env : WebEnv) (sub : Subtitle) (videoPath language : Str) :
    Option Str × List (Str × Str) :=
  match env.download sub with
  | none => (none, [])
  | some content =>
    let r := generateSubtitlePath env.cfg env.fs videoPath language
    if env.writeOk r.1 content then (some r.2.1, [(r.1, content)])
    else (none, [(r.1, content)])

/-- `Handler.translateAndSaveSubtitle` (web.go:480-513): download, parse,
translate, reformat, resolve the save path (language tag `zh-Hant`),
write. -/
def translateAndSaveSubtitle (env : WebEnv) (sub : Subtitle) (videoPath : Str) :
    Option Str × List (Str × Str) :=
  match env.download sub with
  | none => (none, [])
  | some content =>
    match Parse content with
    | (_, some _) => (none, [])
    | (entries, none) =>
      match TranslateEntries entries env.translator with
      | (_, some _) => (none, [])
      | (translatedEntries, none) =>
        let translatedContent := Format translatedEntries
        let r := generateSubtitlePath env.cfg env.fs videoPath "zh-Hant".data
        if env.writeOk r.1 translatedContent then
          (some r.2.1, [(r.1, translatedContent)])
        else (none, [(r.1, translatedContent)])

/-- The HTTP status code the handler writes. -/
structure HttpResponse where
  status : Nat
deriving DecidableEq, Repr

/-- The subtitle-acquisition dispatch of `Handler.ProcessHandler`
(web.go:415-463), after the item's query and video path are resolved: try
the `zh-TW` search, fall back to `en` plus translation, report 404 when the
fallback search also fails.  Returns the response, whether the translation
pipeline ran, and the file writes attempted.  The best-effort metadata
refresh does not affect any of these. -/
def ProcessHandlerCore (env : WebEnv) (searchQuery videoPath : Str) :
    HttpResponse × Bool × List (Str × Str) :=
  match FindBestSubtitle env.search searchQuery "zh-TW".data with
  | (some chineseSubtitle, none) =>
    match downloadAndSaveSubtitle env chineseSubtitle videoPath "zh-Hant".data with
    | (some _, w) => (⟨200⟩, false, w)
    | (none, w) => (⟨500⟩, false, w)
  | _ =>
    match FindBestSubtitle env.search searchQuery "en".data with
    | (_, some _) => (⟨404⟩, false, [])
    | (none, none) => (⟨404⟩, false, [])
    | (some englishSubtitle, none) =>
      match translateAndSaveSubtitle env englishSubtitle videoPath with
      | (some _, w) => (⟨200⟩, true, w)
      | (none, w) => (⟨500⟩, true, w)

/-! ## Specification-side notions

These definitions follow the wording of the specification's claims (not
the source) and are compared with the embedded code in the theorems. -/

/-- The first successful backend answer among the three attempts the retry
ceiling allows, in attempt order. -/
def firstSuccessIn3 (tr : Translator) (text : Str) : Option Str :=
  match tr text 1 with
  | some r => some r
  | none =>
    match tr text 2 with
    | some r => some r
    | none => tr text 3

/-- `small` occurs verbatim (contiguously) inside `big`. -/
def SubStr (small big : Str) : Prop :=
  ∃ pre post, big = pre ++ small ++ post

/-- Executable contiguous-substring check. -/
def containsSLB (small : Str) : Str → Bool
  | [] => small.isEmpty
  | c :: rest => small.isPrefixOf (c :: rest) || containsSLB small rest

/-- The string contains two consecutive newline characters. -/
def hasNN : Str → Bool
  | c1 :: c2 :: rest => decide (c1 = '\n' ∧ c2 = '\n') || hasNN (c2 :: rest)
  | _ => false

/-- The exact shape `HH:MM:SS,mmm`: twelve characters, digits at the digit
positions, `:` and `,` at the separator positions. -/
def tsShape12 : Str → Bool
  | [c1, c2, c3, c4, c5, c6, c7, c8, c9, c10, c11, c12] =>
    c1.isDigit && c2.isDigit && decide (c3 = ':') && c4.isDigit && c5.isDigit &&
      decide (c6 = ':') && c7.isDigit && c8.isDigit && decide (c9 = ',') &&
      c10.isDigit && c11.isDigit && c12.isDigit
  | _ => false

/-- The first character exists and is not Go whitespace. -/
def headNotSpace (s : Str) : Bool :=
  match s.head? with
  | some c => ! goIsSpace c
  | none => false

/-- The last character exists and is not Go whitespace. -/
def lastNotSpace (s : Str) : Bool :=
  match s.getLast? with
  | some c => ! goIsSpace c
  | none => false

/-- A structured well-formed SRT block: index line, two timestamps, text
lines. -/
structure CanonBlock where
  indexLine : Str
  startTime : Str
  endTime : Str
  textLines : List Str
deriving DecidableEq, Repr

/-- A canonical well-formed block: the index line is the decimal rendering
of its own parsed value (no padding, no plus sign), the timestamps have the
exact `HH:MM:SS,mmm` shape, the text lines are non-empty, free of line
terminators, and the text does not start or end with whitespace.  These are
precisely the blocks `Format` itself emits. -/
def canonBlockOk (b : CanonBlock) : Prop :=
  (goAtoi b.indexLine).map intToChars = some b.indexLine ∧
  '\r' ∉ b.indexLine ∧ '\n' ∉ b.indexLine ∧
  headNotSpace b.indexLine = true ∧ lastNotSpace b.indexLine = true ∧
  tsShape12 b.startTime = true ∧ tsShape12 b.endTime = true ∧
  ¬ b.textLines = [] ∧
  (∀ l ∈ b.textLines, ¬ l = [] ∧ '\n' ∉ l ∧ '\r' ∉ l) ∧
  headNotSpace (joinNL b.textLines) = true ∧ lastNotSpace (joinNL b.textLines) = true

instance (b : CanonBlock) : Decidable (canonBlockOk b) := by
  unfold canonBlockOk; infer_instance

/-- The timing line of a canonical block, exactly as `Format` writes it. -/
def tsLine (b : CanonBlock) : Str :=
  b.startTime ++ arrowSep ++ b.endTime

/-- The bytes of one canonical block. -/
def blockChars (b : CanonBlock) : Str :=
  b.indexLine ++ '\n' :: tsLine b ++ '\n' :: joinNL b.textLines

/-- A document made of canonical blocks separated by blank lines. -/
def canonInput (bs : List CanonBlock) : Str :=
  joinNN (bs.map blockChars)

/-- The entry a canonical block denotes. -/
def canonEntry (b : CanonBlock) : SubtitleEntry :=
  ⟨(goAtoi b.indexLine).getD 0, b.startTime, b.endTime, joinNL b.textLines⟩

/-! ## Concrete instances used by the witnesses -/

/-- A configuration with direct save enabled and the docker-compose default
prefix mapping. -/
def cfgExample : Config :=
  ⟨"./downloads".data, true, "/data/media".data, "/media".data⟩

/-- A filesystem where every probe step succeeds. -/
def fsWritable : Fs := ⟨fun _ => true, fun _ => true, fun _ => true⟩

/-- A filesystem where the marker-file creation fails everywhere. -/
def fsUnwritable : Fs := ⟨fun _ => true, fun _ => true, fun _ => false⟩

/-- An item whose only matching subtitle stream is external. -/
def extOnlyItem : MediaItem :=
  ⟨"ext1".data, "Ext Movie".data, "Movie".data, "/data/media/Ext.mkv".data,
   [], [], 0, 0, 2020, ["/data/media/Ext.mkv".data],
   [⟨"Subtitle".data, "zh-TW".data, "subrip".data, true⟩]⟩

/-- An item with an embedded (non-external) `zh-Hant` subtitle stream. -/
def embeddedItem : MediaItem :=
  ⟨"emb1".data, "Emb Movie".data, "Movie".data, "/data/media/Emb.mkv".data,
   [], [], 0, 0, 2021, ["/data/media/Emb.mkv".data],
   [⟨"Subtitle".data, "zh-Hant".data, "subrip".data, false⟩]⟩

/-- Series "Foo", season 2, episode 5. -/
def fooEpisode : MediaItem :=
  ⟨"ep42".data, "The One".data, "Episode".data, "/data/media/Foo/S02E05.mkv".data,
   "Foo".data, "Season 2".data, 5, 2, 0, ["/data/media/Foo/S02E05.mkv".data], []⟩

/-- A movie with a known production year. -/
def movieWithYear : MediaItem :=
  ⟨"m1".data, "Heat".data, "Movie".data, "/data/media/Heat.mkv".data,
   [], [], 0, 0, 1995, [], []⟩

/-- A movie with no known production year. -/
def movieNoYear : MediaItem :=
  ⟨"m2".data, "Heat".data, "Movie".data, "/data/media/Heat.mkv".data,
   [], [], 0, 0, 0, [], []⟩

/-- An item that is neither an episode nor a movie. -/
def seasonItem : MediaItem :=
  ⟨"s1".data, "Season 2".data, "Season".data, "/data/media/Foo".data,
   "Foo".data, [], 0, 2, 0, [], []⟩

/-- An episode whose series name is empty. -/
def orphanEpisode : MediaItem :=
  ⟨"e9".data, "Lost One".data, "Episode".data, "/data/media/Lost.mkv".data,
   [], [], 3, 1, 0, [], []⟩

/-- A provider candidate. -/
def subExample : Subtitle := ⟨"sub1".data, 77, "en".data, "s.srt".data⟩

/-- A small well-formed SRT document. -/
def demoSRT : Str := "1\n00:00:01,000 --> 00:00:02,000\nHi".data

/-- The entry `demoSRT` parses to. -/
def demoEntry : SubtitleEntry :=
  ⟨1, "00:00:01,000".data, "00:00:02,000".data, "Hi".data⟩

/-- An environment whose provider has no `zh-TW` candidates but one `en`
candidate, with a translation backend that always fails. -/
def envFallback : WebEnv :=
  ⟨fun _ lang => if lang = "en".data then ([subExample], none) else ([], none),
   fun _ => some demoSRT,
   fun _ _ => true,
   fsWritable,
   cfgExample,
   fun _ _ => none⟩

/-- An environment whose provider has no candidates in either language. -/
def envEmpty : WebEnv :=
  ⟨fun _ _ => ([], none),
   fun _ => some demoSRT,
   fun _ _ => true,
   fsWritable,
   cfgExample,
   fun _ _ => none⟩

/-- A translation backend that succeeds exactly on the second attempt. -/
def trSecond : Translator :=
  fun _ n => if n = 2 then some "ok".data else none

/-- A well-formed (per the claim) but non-canonical block: the index line
carries leading zeros. -/
def x007 : Str := "007\n00:00:00,000 --> 00:00:01,000\nhi".data

/-- Canonical demo block 1. -/
def demoBlock1 : CanonBlock :=
  ⟨"1".data, "00:00:01,000".data, "00:00:02,000".data, ["Hello".data, "world".data]⟩

/-- Canonical demo block 2. -/
def demoBlock2 : CanonBlock :=
  ⟨"2".data, "00:00:03,500".data, "00:00:04,000".data, ["Bye".data]⟩

end SubtitleHunter

namespace SubtitleHunter

/-! ## Helper lemmas: splitting, joining, trimming -/

lemma consHead_ne_nil (c : Char) (ls : List Str) : ¬ consHead c ls = [] := by
  cases ls <;> simp [consHead]

lemma splitNL_ne_nil (l : Str) : ¬ splitNL l = [] := by
  cases l with
  | nil => simp [splitNL]
  | cons c rest =>
    by_cases h : c = '\n' <;> simp [splitNL, h, consHead_ne_nil]

lemma splitNN_ne_nil (l : Str) : ¬ splitNN l = [] := by
  rcases l with _ | ⟨c1, _ | ⟨c2, rest⟩⟩
  · simp [splitNN]
  · simp [splitNN]
  · by_cases h : c1 = '\n' ∧ c2 = '\n' <;> simp [splitNN, h, consHead_ne_nil]

lemma joinNL_consHead (c : Char) (ls : List Str) (h : ¬ ls = []) :
    joinNL (consHead c ls) = c :: joinNL ls := by
  rcases ls with _ | ⟨x, _ | ⟨y, t⟩⟩
  · exact absurd rfl h
  · rfl
  · rfl

lemma joinNN_consHead (c : Char) (ls : List Str) (h : ¬ ls = []) :
    joinNN (consHead c ls) = c :: joinNN ls := by
  rcases ls with _ | ⟨x, _ | ⟨y, t⟩⟩
  · exact absurd rfl h
  · rfl
  · rfl

lemma joinNL_splitNL (l : Str) : joinNL (splitNL l) = l := by
  induction l with
  | nil => rfl
  | cons c rest ih =>
    by_cases h : c = '\n'
    · have e1 : splitNL (c :: rest) = [] :: splitNL rest := by simp [splitNL, h]
      rw [e1]
      obtain ⟨x, xs, hx⟩ := List.exists_cons_of_ne_nil (splitNL_ne_nil rest)
      rw [hx]
      calc joinNL ([] :: x :: xs) = '\n' :: joinNL (x :: xs) := rfl
        _ = '\n' :: joinNL (splitNL rest) := by rw [hx]
        _ = '\n' :: rest := by rw [ih]
        _ = c :: rest := by rw [h]
    · have e1 : splitNL (c :: rest) = consHead c (splitNL rest) := by simp [splitNL, h]
      rw [e1, joinNL_consHead c _ (splitNL_ne_nil rest), ih]

lemma joinNN_splitNN (l : Str) : joinNN (splitNN l) = l := by
  suffices H : ∀ n (l : Str), l.length ≤ n → joinNN (splitNN l) = l from H l.length l le_rfl
  intro n
  induction n with
  | zero =>
    intro l hl
    have : l = [] := List.eq_nil_of_length_eq_zero (Nat.le_zero.mp hl)
    subst this; rfl
  | succ n ih =>
    intro l hl
    rcases l with _ | ⟨c1, _ | ⟨c2, rest⟩⟩
    · rfl
    · rfl
    · by_cases h : c1 = '\n' ∧ c2 = '\n'
      · have e1 : splitNN (c1 :: c2 :: rest) = [] :: splitNN rest := by simp [splitNN, h]
        rw [e1]
        obtain ⟨x, xs, hx⟩ := List.exists_cons_of_ne_nil (splitNN_ne_nil rest)
        rw [hx]
        have e2 : joinNN ([] :: x :: xs) = '\n' :: '\n' :: joinNN (x :: xs) := rfl
        rw [e2, ← hx, ih rest (by simp at hl; omega), h.1, h.2]
      · have e1 : splitNN (c1 :: c2 :: rest) = consHead c1 (splitNN (c2 :: rest)) := by
          simp [splitNN, h]
        rw [e1, joinNN_consHead c1 _ (splitNN_ne_nil (c2 :: rest)),
          ih (c2 :: rest) (by simp at hl ⊢; omega)]

/-! ## Helper lemmas: substrings -/

lemma subStr_trans {a b c : Str} (h1 : SubStr a b) (h2 : SubStr b c) : SubStr a c := by
  obtain ⟨p1, q1, rfl⟩ := h1
  obtain ⟨p2, q2, rfl⟩ := h2
  exact ⟨p2 ++ p1, q1 ++ q2, by simp [List.append_assoc]⟩

lemma subStr_cons (c : Char) {a l : Str} (h : SubStr a l) : SubStr a (c :: l) := by
  obtain ⟨p, q, rfl⟩ := h
  exact ⟨c :: p, q, rfl⟩

lemma mem_joinNL_sub {x : Str} {ls : List Str} (h : x ∈ ls) : SubStr x (joinNL ls) := by
  induction ls with
  | nil => simp at h
  | cons l t ih =>
    rcases List.mem_cons.mp h with rfl | hmem
    · rcases t with _ | ⟨y, t'⟩
      · exact ⟨[], [], by simp [joinNL]⟩
      · exact ⟨[], '\n' :: joinNL (y :: t'), rfl⟩
    · rcases t with _ | ⟨y, t'⟩
      · simp at hmem
      · obtain ⟨p, q, hpq⟩ := ih hmem
        refine ⟨l ++ '\n' :: p, q, ?_⟩
        rw [show joinNL (l :: y :: t') = l ++ '\n' :: joinNL (y :: t') from rfl, hpq]
        simp [List.append_assoc]

lemma mem_joinNN_sub {x : Str} {ls : List Str} (h : x ∈ ls) : SubStr x (joinNN ls) := by
  induction ls with
  | nil => simp at h
  | cons l t ih =>
    rcases List.mem_cons.mp h with rfl | hmem
    · rcases t with _ | ⟨y, t'⟩
      · exact ⟨[], [], by simp [joinNN]⟩
      · exact ⟨[], '\n' :: '\n' :: joinNN (y :: t'), rfl⟩
    · rcases t with _ | ⟨y, t'⟩
      · simp at hmem
      · obtain ⟨p, q, hpq⟩ := ih hmem
        refine ⟨l ++ '\n' :: '\n' :: p, q, ?_⟩
        rw [show joinNN (l :: y :: t') = l ++ '\n' :: '\n' :: joinNN (y :: t') from rfl, hpq]
        simp [List.append_assoc]

lemma exists_dropWhile_eq (p : Char → Bool) (l : Str) : ∃ pre, l = pre ++ l.dropWhile p := by
  induction l with
  | nil => exact ⟨[], rfl⟩
  | cons c t ih =>
    by_cases h : p c
    · obtain ⟨pre, hp⟩ := ih
      refine ⟨c :: pre, ?_⟩
      rw [List.dropWhile_cons, if_pos h]
      exact congrArg (c :: ·) hp
    · exact ⟨[], by rw [List.dropWhile_cons, if_neg h]; rfl⟩

lemma trimSpace_sub (s : Str) : SubStr (trimSpace s) s := by
  obtain ⟨pre, hpre⟩ := exists_dropWhile_eq goIsSpace s
  obtain ⟨pre2, hpre2⟩ :=
    exists_dropWhile_eq goIsSpace (s.dropWhile goIsSpace).reverse
  refine ⟨pre, pre2.reverse, ?_⟩
  conv_lhs => rw [hpre]
  have h3 : s.dropWhile goIsSpace = trimSpace s ++ pre2.reverse := by
    have := congrArg List.reverse hpre2
    simpa [trimSpace] using this
  rw [h3, List.append_assoc]

lemma dropWhile_eq_self_of_headNotSpace {s : Str} (h : headNotSpace s = true) :
    s.dropWhile goIsSpace = s := by
  cases s with
  | nil => simp [headNotSpace] at h
  | cons c t =>
    simp [headNotSpace] at h
    rw [List.dropWhile_cons, if_neg (by simp [h])]

lemma trimSpace_eq_self {s : Str} (h1 : headNotSpace s = true) (h2 : lastNotSpace s = true) :
    trimSpace s = s := by
  unfold trimSpace
  rw [dropWhile_eq_self_of_headNotSpace h1]
  have hrev : headNotSpace s.reverse = true := by
    unfold headNotSpace
    unfold lastNotSpace at h2
    rw [List.head?_reverse]
    exact h2
  rw [dropWhile_eq_self_of_headNotSpace hrev, List.reverse_reverse]

/-! ## Helper lemmas: character classes -/

lemma goIsSpace_cases {c : Char} (h : goIsSpace c = true) :
    c = ' ' ∨ c = Char.ofNat 9 ∨ c = Char.ofNat 10 ∨ c = Char.ofNat 11 ∨
      c = Char.ofNat 12 ∨ c = Char.ofNat 13 ∨ c = Char.ofNat 133 ∨ c = Char.ofNat 160 := by
  simpa [goIsSpace] using h

lemma reSpace_cases {c : Char} (h : reSpace c = true) :
    c = ' ' ∨ c = Char.ofNat 9 ∨ c = Char.ofNat 10 ∨ c = Char.ofNat 12 ∨
      c = Char.ofNat 13 := by
  simpa [reSpace] using h

lemma isDigit_class {c : Char} (h : c.isDigit = true) :
    ¬ c = '\n' ∧ ¬ c = '\r' ∧ goIsSpace c = false ∧ reSpace c = false := by
  refine ⟨?_, ?_, ?_, ?_⟩
  · rintro rfl; exact absurd h (by decide)
  · rintro rfl; exact absurd h (by decide)
  · cases hgs : goIsSpace c
    · rfl
    · rcases goIsSpace_cases hgs with rfl | rfl | rfl | rfl | rfl | rfl | rfl | rfl <;>
        exact absurd h (by decide)
  · cases hgs : reSpace c
    · rfl
    · rcases reSpace_cases hgs with rfl | rfl | rfl | rfl | rfl <;>
        exact absurd h (by decide)

/-! ## Helper lemmas: the timing pattern -/

lemma tsShape12_cases {t : Str} (h : tsShape12 t = true) :
    ∃ c1 c2 c3 c4 c5 c6 c7 c8 c9 c10 c11 c12,
      t = [c1, c2, c3, c4, c5, c6, c7, c8, c9, c10, c11, c12] ∧
      c1.isDigit = true ∧ c2.isDigit = true ∧ c3 = ':' ∧ c4.isDigit = true ∧
      c5.isDigit = true ∧ c6 = ':' ∧ c7.isDigit = true ∧ c8.isDigit = true ∧
      c9 = ',' ∧ c10.isDigit = true ∧ c11.isDigit = true ∧ c12.isDigit = true := by
  rcases t with _ | ⟨c1, _ | ⟨c2, _ | ⟨c3, _ | ⟨c4, _ | ⟨c5, _ | ⟨c6, _ | ⟨c7, _ | ⟨c8, _ |
    ⟨c9, _ | ⟨c10, _ | ⟨c11, _ | ⟨c12, _ | ⟨c13, tail⟩⟩⟩⟩⟩⟩⟩⟩⟩⟩⟩⟩⟩ <;>
    simp [tsShape12] at h
  obtain ⟨⟨⟨⟨⟨⟨⟨⟨⟨⟨⟨h1, h2⟩, h3⟩, h4⟩, h5⟩, h6⟩, h7⟩, h8⟩, h9⟩, h10⟩, h11⟩, h12⟩ := h
  exact ⟨c1, c2, c3, c4, c5, c6, c7, c8, c9, c10, c11, c12, rfl,
    h1, h2, h3, h4, h5, h6, h7, h8, h9, h10, h11, h12⟩

lemma tsShape12_chars {t : Str} (h : tsShape12 t = true) :
    ¬ t = [] ∧ ∀ c ∈ t, ¬ c = '\n' ∧ ¬ c = '\r' ∧ goIsSpace c = false ∧ reSpace c = false := by
  obtain ⟨c1, c2, c3, c4, c5, c6, c7, c8, c9, c10, c11, c12, rfl,
    h1, h2, h3, h4, h5, h6, h7, h8, h9, h10, h11, h12⟩ := tsShape12_cases h
  refine ⟨by simp, ?_⟩
  intro c hc
  subst h3; subst h6; subst h9
  simp only [List.mem_cons, List.not_mem_nil, or_false] at hc
  rcases hc with rfl | rfl | rfl | rfl | rfl | rfl | rfl | rfl | rfl | rfl | rfl | rfl
  · exact isDigit_class h1
  · exact isDigit_class h2
  · exact ⟨by decide, by decide, by decide, by decide⟩
  · exact isDigit_class h4
  · exact isDigit_class h5
  · exact ⟨by decide, by decide, by decide, by decide⟩
  · exact isDigit_class h7
  · exact isDigit_class h8
  · exact ⟨by decide, by decide, by decide, by decide⟩
  · exact isDigit_class h10
  · exact isDigit_class h11
  · exact isDigit_class h12

lemma matchTsAt_of_shape {t : Str} (h : tsShape12 t = true) (r : Str) :
    matchTsAt (t ++ r) = some (t, r) := by
  obtain ⟨c1, c2, c3, c4, c5, c6, c7, c8, c9, c10, c11, c12, rfl,
    h1, h2, h3, h4, h5, h6, h7, h8, h9, h10, h11, h12⟩ := tsShape12_cases h
  subst h3; subst h6; subst h9
  simp [matchTsAt, h1, h2, h4, h5, h7, h8, h10, h11, h12]

lemma matchTsAt_eq_some {l t r : Str} (h : matchTsAt l = some (t, r)) :
    l = t ++ r ∧ tsShape12 t = true := by
  rcases l with _ | ⟨c1, _ | ⟨c2, _ | ⟨c3, _ | ⟨c4, _ | ⟨c5, _ | ⟨c6, _ | ⟨c7, _ | ⟨c8, _ |
    ⟨c9, _ | ⟨c10, _ | ⟨c11, _ | ⟨c12, rest⟩⟩⟩⟩⟩⟩⟩⟩⟩⟩⟩⟩ <;>
    simp only [matchTsAt] at h <;> try exact Option.noConfusion h
  split at h
  · rename_i hcond
    obtain ⟨ht, hr⟩ : ([c1, c2, c3, c4, c5, c6, c7, c8, c9, c10, c11, c12] = t ∧ rest = r) := by
      simpa using h
    subst ht; subst hr
    refine ⟨by simp, ?_⟩
    simp only [tsShape12]
    obtain ⟨d1, d2, d3, d4, d5, d6, d7, d8, d9, d10, d11, d12⟩ := hcond
    subst d3; subst d6; subst d9
    simp [d1, d2, d4, d5, d7, d8, d10, d11, d12]
  · exact Option.noConfusion h

lemma matchTimingAt_build {st en : Str} (hst : tsShape12 st = true) (hen : tsShape12 en = true) :
    matchTimingAt (st ++ arrowSep ++ en) = some (st, en) := by
  have h1 : matchTsAt (st ++ arrowSep ++ en) = some (st, arrowSep ++ en) := by
    rw [List.append_assoc]
    exact matchTsAt_of_shape hst (arrowSep ++ en)
  have hsp : reSpace ' ' = true := by decide
  have hdash : reSpace '-' = false := by decide
  have hen_drop : en.dropWhile reSpace = en := by
    obtain ⟨c1, c2, c3, c4, c5, c6, c7, c8, c9, c10, c11, c12, rfl, he1, _⟩ :=
      tsShape12_cases hen
    rw [List.dropWhile_cons, if_neg (by simp [(isDigit_class he1).2.2.2])]
  have h2 : (arrowSep ++ en).dropWhile reSpace = '-' :: '-' :: '>' :: (' ' :: en) := by
    show ((' ' :: '-' :: '-' :: '>' :: ' ' :: []) ++ en).dropWhile reSpace = _
    simp only [List.cons_append, List.nil_append, List.dropWhile_cons]
    rw [if_pos (by simp [hsp]), if_neg (by simp [hdash])]
  have h3 : (' ' :: en).dropWhile reSpace = en := by
    rw [List.dropWhile_cons, if_pos (by simp [hsp]), hen_drop]
  have h4 : matchTsAt en = some (en, []) := by
    have := matchTsAt_of_shape hen []
    simpa using this
  simp only [matchTimingAt, h1, h2]
  rw [show List.take 3 ('-' :: '-' :: '>' :: ' ' :: en) = ['-', '-', '>'] from rfl,
    if_pos rfl,
    show List.drop 3 ('-' :: '-' :: '>' :: ' ' :: en) = ' ' :: en from rfl,
    h3, h4]

lemma matchTimingAt_props {l st en : Str} (h : matchTimingAt l = some (st, en)) :
    tsShape12 st = true ∧ tsShape12 en = true ∧ SubStr st l ∧ SubStr en l := by
  unfold matchTimingAt at h
  split at h
  · exact Option.noConfusion h
  · rename_i ts1 r1 heq1
    obtain ⟨hl, hsh1⟩ := matchTsAt_eq_some heq1
    simp only [] at h
    split at h
    · rename_i hcond
      split at h
      · exact Option.noConfusion h
      · rename_i ts2 r4 heq3
        obtain ⟨hdrop3, hsh2⟩ := matchTsAt_eq_some heq3
        obtain ⟨rfl, rfl⟩ : (ts1 = st ∧ ts2 = en) := by simpa using h
        refine ⟨hsh1, hsh2, ⟨[], r1, by simpa using hl⟩, ?_⟩
        obtain ⟨p2, hp2⟩ := exists_dropWhile_eq reSpace r1
        obtain ⟨p4, hp4⟩ := exists_dropWhile_eq reSpace ((r1.dropWhile reSpace).drop 3)
        rw [hdrop3] at hp4
        have hsplit3 : r1.dropWhile reSpace =
            '-' :: '-' :: '>' :: (r1.dropWhile reSpace).drop 3 := by
          conv_lhs => rw [← List.take_append_drop 3 (r1.dropWhile reSpace)]
          rw [hcond]
          rfl
        refine ⟨ts1 ++ p2 ++ '-' :: '-' :: '>' :: p4, r4, ?_⟩
        rw [hl]
        conv_lhs => rw [hp2, hsplit3, hp4]
        simp [List.append_assoc]
    · exact Option.noConfusion h

lemma findTiming_props {l st en : Str} (h : findTiming l = some (st, en)) :
    tsShape12 st = true ∧ tsShape12 en = true ∧ SubStr st l ∧ SubStr en l := by
  induction l with
  | nil => simp [findTiming] at h
  | cons c rest ih =>
    unfold findTiming at h
    split at h
    · rename_i p heq
      obtain rfl : p = (st, en) := by simpa using h
      exact matchTimingAt_props heq
    · obtain ⟨hs1, hs2, hsub1, hsub2⟩ := ih h
      exact ⟨hs1, hs2, subStr_cons c hsub1, subStr_cons c hsub2⟩

lemma findTiming_head {l : Str} {p : Str × Str} (hne : ¬ l = [])
    (h : matchTimingAt l = some p) : findTiming l = some p := by
  cases l with
  | nil => exact absurd rfl hne
  | cons c rest => simp [findTiming, h]

/-! ## Helper lemmas: double newlines and block splitting -/

lemma hasNN_of_not_mem {l : Str} (h : '\n' ∉ l) : hasNN l = false := by
  induction l with
  | nil => rfl
  | cons c rest ih =>
    have hc : ¬ c = '\n' := fun hc => h (hc ▸ List.mem_cons_self c rest)
    have hr : '\n' ∉ rest := fun hm => h (List.mem_cons_of_mem c hm)
    cases rest with
    | nil => rfl
    | cons d t =>
      show (decide (c = '\n' ∧ d = '\n') || hasNN (d :: t)) = false
      rw [ih hr]
      simp [hc]

lemma hasNN_cons {c : Char} {w : Str} (hhead : ¬ (c = '\n' ∧ w.head? = some '\n'))
    (hw : hasNN w = false) : hasNN (c :: w) = false := by
  cases w with
  | nil => rfl
  | cons d t =>
    show (decide (c = '\n' ∧ d = '\n') || hasNN (d :: t)) = false
    rw [hw]
    simp only [Bool.or_false, decide_eq_false_iff_not]
    intro hcd
    exact hhead ⟨hcd.1, by simp [hcd.2]⟩

lemma hasNN_append {x y : Str} (hx : hasNN x = false) (hy : hasNN y = false)
    (hb : ¬ (x.getLast? = some '\n' ∧ y.head? = some '\n')) : hasNN (x ++ y) = false := by
  induction x with
  | nil => simpa using hy
  | cons c x' ih =>
    cases x' with
    | nil =>
      have : ¬ (c = '\n' ∧ y.head? = some '\n') := by
        intro hc
        exact hb ⟨by simp [hc.1], hc.2⟩
      simpa using hasNN_cons this hy
    | cons d t =>
      have hx' : hasNN (d :: t) = false := by
        have := hx
        show hasNN (d :: t) = false
        by_contra hcon
        rw [show hasNN (c :: d :: t) = (decide (c = '\n' ∧ d = '\n') || hasNN (d :: t)) from rfl]
          at this
        simp at this
        exact absurd this.2 (by simpa using hcon)
      have hcd : ¬ (c = '\n' ∧ d = '\n') := by
        intro hcon
        rw [show hasNN (c :: d :: t) = (decide (c = '\n' ∧ d = '\n') || hasNN (d :: t)) from rfl]
          at hx
        simp [hcon.1, hcon.2] at hx
      have hb' : ¬ ((d :: t).getLast? = some '\n' ∧ y.head? = some '\n') := by
        intro hcon
        exact hb ⟨by rw [List.getLast?_cons_cons]; exact hcon.1, hcon.2⟩
      have hrec := ih hx' hb'
      apply hasNN_cons _ hrec
      intro hcon
      have h2 : d = '\n' := by
        have hh := hcon.2
        rw [show ((d :: t ++ y).head? : Option Char) = some d from rfl] at hh
        exact Option.some.inj hh
      exact hcd ⟨hcon.1, h2⟩

lemma splitNL_append {l r : Str} (h : '\n' ∉ l) :
    splitNL (l ++ '\n' :: r) = l :: splitNL r := by
  induction l with
  | nil => simp [splitNL]
  | cons c t ih =>
    have hc : ¬ c = '\n' := fun hc => h (hc ▸ List.mem_cons_self c t)
    have ht : '\n' ∉ t := fun hm => h (List.mem_cons_of_mem c hm)
    show splitNL (c :: (t ++ '\n' :: r)) = (c :: t) :: splitNL r
    rw [show splitNL (c :: (t ++ '\n' :: r)) =
      if c = '\n' then [] :: splitNL (t ++ '\n' :: r)
      else consHead c (splitNL (t ++ '\n' :: r)) from rfl]
    rw [if_neg hc, ih ht]
    rfl

lemma splitNL_single {l : Str} (h : '\n' ∉ l) : splitNL l = [l] := by
  induction l with
  | nil => rfl
  | cons c t ih =>
    have hc : ¬ c = '\n' := fun hc => h (hc ▸ List.mem_cons_self c t)
    have ht : '\n' ∉ t := fun hm => h (List.mem_cons_of_mem c hm)
    rw [show splitNL (c :: t) =
      if c = '\n' then [] :: splitNL t else consHead c (splitNL t) from rfl]
    rw [if_neg hc, ih ht]
    rfl

lemma splitNN_append {l r : Str} (hnn : hasNN l = false) (hlast : ¬ l.getLast? = some '\n') :
    splitNN (l ++ '\n' :: '\n' :: r) = l :: splitNN r := by
  induction l with
  | nil => simp [splitNN]
  | cons c t ih =>
    cases t with
    | nil =>
      have hc : ¬ c = '\n' := by
        intro hc
        exact hlast (by simp [hc])
      show splitNN (c :: '\n' :: ('\n' :: r)) = [c] :: splitNN r
      rw [show splitNN (c :: '\n' :: ('\n' :: r)) =
        if c = '\n' ∧ '\n' = '\n' then [] :: splitNN ('\n' :: r)
        else consHead c (splitNN ('\n' :: ('\n' :: r))) from rfl]
      rw [if_neg (by simp [hc])]
      rw [show splitNN ('\n' :: ('\n' :: r)) =
        if '\n' = '\n' ∧ '\n' = '\n' then [] :: splitNN r
        else consHead '\n' (splitNN ('\n' :: r)) from rfl]
      rw [if_pos ⟨rfl, rfl⟩]
      rfl
    | cons d t' =>
      have hcd : ¬ (c = '\n' ∧ d = '\n') := by
        intro hcon
        rw [show hasNN (c :: d :: t') = (decide (c = '\n' ∧ d = '\n') || hasNN (d :: t')) from rfl]
          at hnn
        simp [hcon.1, hcon.2] at hnn
      have hnn' : hasNN (d :: t') = false := by
        by_contra hcon
        rw [show hasNN (c :: d :: t') = (decide (c = '\n' ∧ d = '\n') || hasNN (d :: t')) from rfl]
          at hnn
        simp at hnn
        exact absurd hnn.2 (by simpa using hcon)
      have hlast' : ¬ (d :: t').getLast? = some '\n' := by
        rw [← List.getLast?_cons_cons (a := c)]
        exact hlast
      show splitNN (c :: (d :: (t' ++ '\n' :: '\n' :: r))) = (c :: d :: t') :: splitNN r
      rw [show splitNN (c :: (d :: (t' ++ '\n' :: '\n' :: r))) =
        if c = '\n' ∧ d = '\n' then [] :: splitNN (t' ++ '\n' :: '\n' :: r)
        else consHead c (splitNN (d :: (t' ++ '\n' :: '\n' :: r))) from rfl]
      rw [if_neg hcd, show d :: (t' ++ '\n' :: '\n' :: r) = (d :: t') ++ '\n' :: '\n' :: r
        from rfl]
      rw [ih hnn' hlast']
      rfl

lemma splitNN_single {l : Str} (hnn : hasNN l = false) : splitNN l = [l] := by
  induction l with
  | nil => rfl
  | cons c t ih =>
    cases t with
    | nil => rfl
    | cons d t' =>
      have hcd : ¬ (c = '\n' ∧ d = '\n') := by
        intro hcon
        rw [show hasNN (c :: d :: t') = (decide (c = '\n' ∧ d = '\n') || hasNN (d :: t')) from rfl]
          at hnn
        simp [hcon.1, hcon.2] at hnn
      have hnn' : hasNN (d :: t') = false := by
        by_contra hcon
        rw [show hasNN (c :: d :: t') = (decide (c = '\n' ∧ d = '\n') || hasNN (d :: t')) from rfl]
          at hnn
        simp at hnn
        exact absurd hnn.2 (by simpa using hcon)
      rw [show splitNN (c :: d :: t') =
        if c = '\n' ∧ d = '\n' then [] :: splitNN t'
        else consHead c (splitNN (d :: t')) from rfl]
      rw [if_neg hcd, ih hnn']
      rfl

lemma mem_of_getLast?_eq {l : Str} {c : Char} (h : l.getLast? = some c) : c ∈ l := by
  induction l with
  | nil => simp at h
  | cons c1 t ih =>
    cases t with
    | nil =>
      obtain rfl : c1 = c := by simpa using h
      exact List.mem_cons_self c1 []
    | cons d t' =>
      rw [List.getLast?_cons_cons] at h
      exact List.mem_cons_of_mem c1 (ih h)

lemma headNotSpace_ne_nil {l : Str} (h : headNotSpace l = true) : ¬ l = [] := by
  intro hl; subst hl; simp [headNotSpace] at h

lemma joinNL_head? {l : Str} (t : List Str) (hl : ¬ l = []) :
    (joinNL (l :: t)).head? = l.head? := by
  cases t with
  | nil => rfl
  | cons y t' =>
    show (l ++ '\n' :: joinNL (y :: t')).head? = l.head?
    exact List.head?_append_of_ne_nil l hl

lemma joinNL_ne_nil {ls : List Str} (hne : ¬ ls = []) (h : ∀ l ∈ ls, ¬ l = []) :
    ¬ joinNL ls = [] := by
  cases ls with
  | nil => exact absurd rfl hne
  | cons l t =>
    cases t with
    | nil => exact h l (List.mem_cons_self l [])
    | cons y t' =>
      show ¬ l ++ '\n' :: joinNL (y :: t') = []
      simp

lemma joinNL_getLast? : ∀ {ls : List Str} {last : Str}, ls.getLast? = some last →
    (∀ l ∈ ls, ¬ l = []) → (joinNL ls).getLast? = last.getLast?
  | [], _, h, _ => by simp at h
  | [l], last, h, _ => by
    obtain rfl : l = last := by simpa using h
    rfl
  | l :: y :: t', last, h, hns => by
    rw [List.getLast?_cons_cons] at h
    show (l ++ '\n' :: joinNL (y :: t')).getLast? = last.getLast?
    rw [List.getLast?_append_of_ne_nil l (by simp)]
    have hjoin_ne : ¬ joinNL (y :: t') = [] :=
      joinNL_ne_nil (by simp) (fun x hx => hns x (List.mem_cons_of_mem l hx))
    obtain ⟨c, cs, hc⟩ := List.exists_cons_of_ne_nil hjoin_ne
    rw [hc, List.getLast?_cons_cons, ← hc]
    exact joinNL_getLast? h (fun x hx => hns x (List.mem_cons_of_mem l hx))

lemma hasNN_joinNL {ls : List Str} (h : ∀ l ∈ ls, ¬ l = [] ∧ '\n' ∉ l) :
    hasNN (joinNL ls) = false := by
  induction ls with
  | nil => rfl
  | cons l t ih =>
    cases t with
    | nil => exact hasNN_of_not_mem (h l (List.mem_cons_self l [])).2
    | cons y t' =>
      show hasNN (l ++ '\n' :: joinNL (y :: t')) = false
      have hl := h l (List.mem_cons_self l _)
      have hy := h y (List.mem_cons_of_mem l (List.mem_cons_self y t'))
      have hrec : hasNN (joinNL (y :: t')) = false :=
        ih (fun x hx => h x (List.mem_cons_of_mem l hx))
      have hyhead : (joinNL (y :: t')).head? = y.head? := joinNL_head? t' hy.1
      refine hasNN_append (hasNN_of_not_mem hl.2) ?_ ?_
      · refine hasNN_cons ?_ hrec
        intro hcon
        rw [hyhead] at hcon
        exact hy.2 (by
          cases y with
          | nil => simp at hcon
          | cons c cs =>
            obtain rfl : c = '\n' := by simpa using hcon.2
            exact List.mem_cons_self '\n' cs)
      · intro hcon
        exact hl.2 (mem_of_getLast?_eq hcon.1)

lemma splitNL_joinNL {ls : List Str} (hne : ¬ ls = []) (h : ∀ l ∈ ls, '\n' ∉ l) :
    splitNL (joinNL ls) = ls := by
  induction ls with
  | nil => exact absurd rfl hne
  | cons l t ih =>
    cases t with
    | nil => exact splitNL_single (h l (List.mem_cons_self l []))
    | cons y t' =>
      show splitNL (l ++ '\n' :: joinNL (y :: t')) = l :: (y :: t')
      rw [splitNL_append (h l (List.mem_cons_self l _)),
        ih (by simp) (fun x hx => h x (List.mem_cons_of_mem l hx))]

lemma mem_joinNN_cases {c : Char} : ∀ {ls : List Str}, c ∈ joinNN ls → c = '\n' ∨ ∃ l ∈ ls, c ∈ l := by
  intro ls
  induction ls with
  | nil => intro h; simp [joinNN] at h
  | cons l t ih =>
    intro h
    cases t with
    | nil =>
      right
      exact ⟨l, List.mem_cons_self l [], h⟩
    | cons y t' =>
      rw [show joinNN (l :: y :: t') = l ++ '\n' :: '\n' :: joinNN (y :: t') from rfl] at h
      rcases List.mem_append.mp h with hl | hr
      · exact Or.inr ⟨l, List.mem_cons_self l _, hl⟩
      · rcases List.mem_cons.mp hr with rfl | hr2
        · exact Or.inl rfl
        · rcases List.mem_cons.mp hr2 with rfl | hr3
          · exact Or.inl rfl
          · rcases ih hr3 with hnl | ⟨x, hx, hcx⟩
            · exact Or.inl hnl
            · exact Or.inr ⟨x, List.mem_cons_of_mem l hx, hcx⟩

lemma filterMap_eq_map_of_some {α β : Type} (f : α → Option β) (g : α → β) :
    ∀ (l : List α), (∀ x ∈ l, f x = some (g x)) → l.filterMap f = l.map g
  | [], _ => rfl
  | x :: t, H => by
    rw [List.filterMap_cons, H x (List.mem_cons_self x t),
      filterMap_eq_map_of_some f g t (fun y hy => H y (List.mem_cons_of_mem x hy))]
    rfl

lemma normalizeCRLF_eq_self {l : Str} (h : '\r' ∉ l) : normalizeCRLF l = l := by
  induction l with
  | nil => rfl
  | cons c t ih =>
    have hc : ¬ c = '\r' := fun hc => h (hc ▸ List.mem_cons_self c t)
    have ht : '\r' ∉ t := fun hm => h (List.mem_cons_of_mem c hm)
    cases t with
    | nil => rfl
    | cons d t' =>
      rw [show normalizeCRLF (c :: d :: t') =
        if c = '\r' ∧ d = '\n' then '\n' :: normalizeCRLF t'
        else c :: normalizeCRLF (d :: t') from rfl]
      rw [if_neg (by intro hcon; exact hc hcon.1), ih ht]

/-! ## Helper lemmas: per-block parsing -/

lemma mem_joinNL_cases {c : Char} : ∀ {ls : List Str}, c ∈ joinNL ls → c = '\n' ∨ ∃ l ∈ ls, c ∈ l := by
  intro ls
  induction ls with
  | nil => intro h; simp [joinNL] at h
  | cons l t ih =>
    intro h
    cases t with
    | nil =>
      right
      exact ⟨l, List.mem_cons_self l [], h⟩
    | cons y t' =>
      rw [show joinNL (l :: y :: t') = l ++ '\n' :: joinNL (y :: t') from rfl] at h
      rcases List.mem_append.mp h with hl | hr
      · exact Or.inr ⟨l, List.mem_cons_self l _, hl⟩
      · rcases List.mem_cons.mp hr with rfl | hr2
        · exact Or.inl rfl
        · rcases ih hr2 with hnl | ⟨x, hx, hcx⟩
          · exact Or.inl hnl
          · exact Or.inr ⟨x, List.mem_cons_of_mem l hx, hcx⟩

lemma headNotSpace_ne_nl {s : Str} (h : headNotSpace s = true) : ¬ s.head? = some '\n' := by
  intro hcon
  unfold headNotSpace at h
  rw [hcon] at h
  simp at h
  exact absurd h (by decide)

lemma lastNotSpace_ne_nl {s : Str} (h : lastNotSpace s = true) : ¬ s.getLast? = some '\n' := by
  intro hcon
  unfold lastNotSpace at h
  rw [hcon] at h
  simp at h
  exact absurd h (by decide)

lemma getLast?_cons_of_ne {c : Char} {z : Str} (h : ¬ z = []) :
    (c :: z).getLast? = z.getLast? := by
  obtain ⟨d, t, rfl⟩ := List.exists_cons_of_ne_nil h
  exact List.getLast?_cons_cons

lemma blockParse_props {block : Str} {e : SubtitleEntry} (h : blockParse block = some e) :
    tsShape12 e.startTime = true ∧ tsShape12 e.endTime = true ∧
    SubStr e.startTime block ∧ SubStr e.endTime block ∧
    ∃ l0 l1 ls, splitNL (trimSpace block) = l0 :: l1 :: ls ∧
      goAtoi (trimSpace l0) = some e.index ∧
      findTiming l1 = some (e.startTime, e.endTime) := by
  simp only [blockParse] at h
  split at h
  · exact Option.noConfusion h
  · split at h
    · rename_i l0 l1 l2 rest heqsplit
      split at h
      · exact Option.noConfusion h
      · rename_i idx heqatoi
        split at h
        · exact Option.noConfusion h
        · rename_i st en heqfind
          obtain rfl :
              e = (⟨idx, st, en, trimSpace (joinNL (l2 :: rest))⟩ : SubtitleEntry) := by
            have := h
            simp at this
            exact this.symm
          obtain ⟨hs1, hs2, hsub1, hsub2⟩ := findTiming_props heqfind
          have hl1mem : l1 ∈ splitNL (trimSpace block) := by rw [heqsplit]; simp
          have hl1sub : SubStr l1 (trimSpace block) := by
            have := mem_joinNL_sub hl1mem
            rwa [joinNL_splitNL] at this
          refine ⟨hs1, hs2, ?_, ?_, l0, l1, l2 :: rest, heqsplit, heqatoi, heqfind⟩
          · exact subStr_trans (subStr_trans hsub1 hl1sub) (trimSpace_sub block)
          · exact subStr_trans (subStr_trans hsub2 hl1sub) (trimSpace_sub block)
    · exact Option.noConfusion h

/-! ## Helper lemmas: canonical blocks and the round trip -/

lemma canon_atoi {b : CanonBlock} (h : canonBlockOk b) :
    ∃ n, goAtoi b.indexLine = some n ∧ intToChars n = b.indexLine := by
  rcases hA : goAtoi b.indexLine with _ | n
  · have := h.1
    rw [hA] at this
    exact absurd this (by simp)
  · have := h.1
    rw [hA] at this
    exact ⟨n, rfl, by simpa using this⟩

lemma tsLine_props {b : CanonBlock} (hst : tsShape12 b.startTime = true)
    (hen : tsShape12 b.endTime = true) :
    ¬ tsLine b = [] ∧ '\n' ∉ tsLine b ∧ '\r' ∉ tsLine b ∧
    ¬ (tsLine b).getLast? = some '\n' := by
  obtain ⟨hstne, hstch⟩ := tsShape12_chars hst
  obtain ⟨henne, hench⟩ := tsShape12_chars hen
  have hmem : '\n' ∉ tsLine b ∧ '\r' ∉ tsLine b := by
    constructor <;> intro hmem <;>
      rcases List.mem_append.mp hmem with hl | hr
    · rcases List.mem_append.mp hl with hll | hlr
      · exact (hstch '\n' hll).1 rfl
      · simp [arrowSep] at hlr
    · exact (hench '\n' hr).1 rfl
    · rcases List.mem_append.mp hl with hll | hlr
      · exact (hstch '\r' hll).2.1 rfl
      · simp [arrowSep] at hlr
    · exact (hench '\r' hr).2.1 rfl
  refine ⟨?_, hmem.1, hmem.2, ?_⟩
  · simp [tsLine, arrowSep]
  · intro hcon
    have : (tsLine b).getLast? = b.endTime.getLast? :=
      List.getLast?_append_of_ne_nil _ henne
    rw [this] at hcon
    exact (hench '\n' (mem_of_getLast?_eq hcon)).1 rfl

lemma blockChars_shape (b : CanonBlock) :
    blockChars b = b.indexLine ++ '\n' :: (tsLine b ++ '\n' :: joinNL b.textLines) := by
  simp [blockChars, List.append_assoc]

lemma blockChars_props {b : CanonBlock} (h : canonBlockOk b) :
    hasNN (blockChars b) = false ∧ ¬ (blockChars b).getLast? = some '\n' ∧
    '\r' ∉ blockChars b ∧ headNotSpace (blockChars b) = true ∧
    lastNotSpace (blockChars b) = true := by
  obtain ⟨hmap, hcr, hnl, hhead, hlast, hst, hen, htne, hlines, hjhead, hjlast⟩ := h
  obtain ⟨htl_ne, htl_nl, htl_cr, htl_last⟩ := tsLine_props hst hen
  have hidx_ne : ¬ b.indexLine = [] := headNotSpace_ne_nil hhead
  have hjoin_ne : ¬ joinNL b.textLines = [] :=
    joinNL_ne_nil htne (fun l hl => (hlines l hl).1)
  have hjoin_nn : hasNN (joinNL b.textLines) = false :=
    hasNN_joinNL (fun l hl => ⟨(hlines l hl).1, (hlines l hl).2.1⟩)
  have htail_ne : ¬ (tsLine b ++ '\n' :: joinNL b.textLines) = [] := by simp
  have hlast_eq : (blockChars b).getLast? = (joinNL b.textLines).getLast? := by
    rw [blockChars_shape, List.getLast?_append_of_ne_nil _ (by simp),
      getLast?_cons_of_ne htail_ne, List.getLast?_append_of_ne_nil _ (by simp),
      getLast?_cons_of_ne hjoin_ne]
  refine ⟨?_, ?_, ?_, ?_, ?_⟩
  · -- no double newline
    rw [blockChars_shape]
    refine hasNN_append (hasNN_of_not_mem hnl) ?_ ?_
    · refine hasNN_cons ?_ ?_
      · intro hcon
        have : (tsLine b ++ '\n' :: joinNL b.textLines).head? = (tsLine b).head? :=
          List.head?_append_of_ne_nil _ htl_ne
        rw [this] at hcon
        obtain ⟨c0, cs0, hc0⟩ := List.exists_cons_of_ne_nil htl_ne
        rw [hc0] at hcon
        obtain rfl : c0 = '\n' := by simpa using hcon.2
        refine htl_nl ?_
        rw [hc0]
        exact List.mem_cons_self '\n' cs0
      · refine hasNN_append (hasNN_of_not_mem htl_nl) ?_ ?_
        · refine hasNN_cons ?_ hjoin_nn
          intro hcon
          exact headNotSpace_ne_nl hjhead hcon.2
        · intro hcon
          exact htl_nl (mem_of_getLast?_eq hcon.1)
    · intro hcon
      exact hnl (mem_of_getLast?_eq hcon.1)
  · -- last character is not a newline
    rw [hlast_eq]
    exact lastNotSpace_ne_nl hjlast
  · -- no carriage return
    rw [blockChars_shape]
    intro hmem
    rcases List.mem_append.mp hmem with hl | hr
    · exact hcr hl
    · rcases List.mem_cons.mp hr with heq | hr2
      · exact absurd heq (by decide)
      · rcases List.mem_append.mp hr2 with hl2 | hr3
        · exact htl_cr hl2
        · rcases List.mem_cons.mp hr3 with hated | hr4
          · exact absurd hated (by decide)
          · rcases mem_joinNL_cases hr4 with hnl2 | ⟨x, hx, hcx⟩
            · exact absurd hnl2 (by decide)
            · exact (hlines x hx).2.2 hcx
  · -- leading character
    obtain ⟨c0, cs0, hc0⟩ := List.exists_cons_of_ne_nil hidx_ne
    have : (blockChars b).head? = b.indexLine.head? := by
      rw [blockChars_shape]
      exact List.head?_append_of_ne_nil _ hidx_ne
    unfold headNotSpace at hhead ⊢
    rw [this]
    exact hhead
  · -- trailing character
    unfold lastNotSpace at hjlast ⊢
    rw [hlast_eq]
    exact hjlast

lemma blockParse_canon {b : CanonBlock} (h : canonBlockOk b) :
    blockParse (blockChars b) = some (canonEntry b) := by
  obtain ⟨hbNN, hbLast, hbCR, hbHead, hbLastNS⟩ := blockChars_props h
  obtain ⟨n, hAeq, hInt⟩ := canon_atoi h
  obtain ⟨hmap, hcr, hnl, hhead, hlast, hst, hen, htne, hlines, hjhead, hjlast⟩ := h
  obtain ⟨htl_ne, htl_nl, htl_cr, htl_last⟩ := tsLine_props hst hen
  have htrim : trimSpace (blockChars b) = blockChars b := trimSpace_eq_self hbHead hbLastNS
  have hsplit : splitNL (blockChars b) = b.indexLine :: tsLine b :: b.textLines := by
    rw [blockChars_shape, splitNL_append hnl, splitNL_append htl_nl,
      splitNL_joinNL htne (fun l hl => (hlines l hl).2.1)]
  have htrimIdx : trimSpace b.indexLine = b.indexLine := trimSpace_eq_self hhead hlast
  have htiming : findTiming (tsLine b) = some (b.startTime, b.endTime) := by
    refine findTiming_head htl_ne ?_
    show matchTimingAt (b.startTime ++ arrowSep ++ b.endTime) = some (b.startTime, b.endTime)
    exact matchTimingAt_build hst hen
  have htext : trimSpace (joinNL b.textLines) = joinNL b.textLines :=
    trimSpace_eq_self hjhead hjlast
  obtain ⟨tl0, tlr, htl⟩ := List.exists_cons_of_ne_nil htne
  simp only [blockParse]
  rw [htrim, if_neg (headNotSpace_ne_nil hbHead), hsplit, htl]
  show (match goAtoi (trimSpace b.indexLine) with
        | none => none
        | some idx =>
          match findTiming (tsLine b) with
          | none => none
          | some (st, en) =>
            some ⟨idx, st, en, trimSpace (joinNL (tl0 :: tlr))⟩) = some (canonEntry b)
  rw [htrimIdx, hAeq, htiming, show (tl0 :: tlr) = b.textLines from htl.symm, htext]
  simp [canonEntry, hAeq]

lemma canonInput_cons_cons (b b2 : CanonBlock) (t : List CanonBlock) :
    canonInput (b :: b2 :: t) = blockChars b ++ '\n' :: '\n' :: canonInput (b2 :: t) := rfl

lemma splitNN_canonInput : ∀ {bs : List CanonBlock}, ¬ bs = [] →
    (∀ b ∈ bs, canonBlockOk b) → splitNN (canonInput bs) = bs.map blockChars
  | [], h, _ => absurd rfl h
  | [b], _, hc => by
    show splitNN (joinNN [blockChars b]) = [blockChars b]
    exact splitNN_single (blockChars_props (hc b (by simp))).1
  | b :: b2 :: t, _, hc => by
    rw [canonInput_cons_cons]
    obtain ⟨hbNN, hbLast, _, _, _⟩ := blockChars_props (hc b (by simp))
    rw [splitNN_append hbNN hbLast,
      splitNN_canonInput (by simp) (fun x hx => hc x (List.mem_cons_of_mem b hx))]
    rfl

lemma cr_not_mem_canonInput {bs : List CanonBlock} (hc : ∀ b ∈ bs, canonBlockOk b) :
    '\r' ∉ canonInput bs := by
  intro hmem
  rcases mem_joinNN_cases hmem with hnl | ⟨l, hl, hcl⟩
  · exact absurd hnl (by decide)
  · obtain ⟨b, hb, rfl⟩ := List.mem_map.mp hl
    exact (blockChars_props (hc b hb)).2.2.1 hcl

lemma entryChunk_canon {b : CanonBlock} (h : canonBlockOk b) :
    entryChunk (canonEntry b) = blockChars b ++ ['\n'] := by
  obtain ⟨n, hAeq, hInt⟩ := canon_atoi h
  simp [entryChunk, blockChars, canonEntry, tsLine, hAeq, hInt, List.append_assoc]

lemma joinNL_append_nl : ∀ {xs : List Str}, ¬ xs = [] →
    joinNL (xs.map (fun x => x ++ ['\n'])) = joinNN xs ++ ['\n']
  | [], h => absurd rfl h
  | [x], _ => rfl
  | x :: y :: t, _ => by
    show joinNL ((x ++ ['\n']) :: (y ++ ['\n']) :: t.map (fun x => x ++ ['\n'])) =
      (x ++ '\n' :: '\n' :: joinNN (y :: t)) ++ ['\n']
    rw [show joinNL ((x ++ ['\n']) :: (y ++ ['\n']) :: t.map (fun x => x ++ ['\n'])) =
      (x ++ ['\n']) ++ '\n' :: joinNL ((y ++ ['\n']) :: t.map (fun x => x ++ ['\n'])) from rfl]
    rw [show ((y ++ ['\n']) :: t.map (fun x => x ++ ['\n'])) =
      (y :: t).map (fun x => x ++ ['\n']) from rfl]
    rw [joinNL_append_nl (by simp)]
    simp [List.append_assoc]

lemma Format_canon {bs : List CanonBlock} (hne : ¬ bs = []) (hc : ∀ b ∈ bs, canonBlockOk b) :
    Format (bs.map canonEntry) = canonInput bs ++ ['\n'] := by
  unfold Format
  rw [List.map_map]
  have hmapeq : bs.map (entryChunk ∘ canonEntry) =
      (bs.map blockChars).map (fun x => x ++ ['\n']) := by
    rw [List.map_map]
    exact List.map_congr_left (fun b hb => entryChunk_canon (hc b hb))
  rw [hmapeq, joinNL_append_nl (by simpa using hne)]
  rfl

/-! ## Helper lemmas: retry policy and path mapping -/

lemma retryFrom_step3 (tr : Translator) (text : Str) :
    retryFrom tr text 3 1 =
      (match tr text 3 with
       | some r => ⟨some r, 1, [2]⟩
       | none => ⟨none, 1, [2]⟩) := by
  have e : retryFrom tr text 3 1 =
      (match tr text 3 with
       | some r => ⟨some r, 1, [2]⟩
       | none => ⟨(retryFrom tr text 4 0).result, (retryFrom tr text 4 0).attempts + 1,
           [2] ++ (retryFrom tr text 4 0).waits⟩) := rfl
  rw [e]
  cases h3 : tr text 3 <;> rfl

lemma retryFrom_step2 (tr : Translator) (text : Str) :
    retryFrom tr text 2 2 =
      (match tr text 2 with
       | some r => ⟨some r, 1, [1]⟩
       | none =>
         match tr text 3 with
         | some r => ⟨some r, 2, [1, 2]⟩
         | none => ⟨none, 2, [1, 2]⟩) := by
  have e : retryFrom tr text 2 2 =
      (match tr text 2 with
       | some r => ⟨some r, 1, [1]⟩
       | none => ⟨(retryFrom tr text 3 1).result, (retryFrom tr text 3 1).attempts + 1,
           [1] ++ (retryFrom tr text 3 1).waits⟩) := rfl
  rw [e, retryFrom_step3]
  cases h2 : tr text 2
  · cases h3 : tr text 3 <;> rfl
  · rfl

lemma translateWithRetry_three (tr : Translator) (text : Str) :
    translateWithRetry tr text 3 =
      (match tr text 1 with
       | some r => ⟨some r, 1, []⟩
       | none =>
         match tr text 2 with
         | some r => ⟨some r, 2, [1]⟩
         | none =>
           match tr text 3 with
           | some r => ⟨some r, 3, [1, 2]⟩
           | none => ⟨none, 3, [1, 2]⟩) := by
  have e : translateWithRetry tr text 3 =
      (match tr text 1 with
       | some r => ⟨some r, 1, []⟩
       | none => ⟨(retryFrom tr text 2 2).result, (retryFrom tr text 2 2).attempts + 1,
           [] ++ (retryFrom tr text 2 2).waits⟩) := rfl
  rw [e, retryFrom_step2]
  cases h1 : tr text 1
  · cases h2 : tr text 2
    · cases h3 : tr text 3 <;> rfl
    · rfl
  · rfl

lemma retry_result_eq_firstSuccess (tr : Translator) (text : Str) :
    (translateWithRetry tr text 3).result = firstSuccessIn3 tr text := by
  rw [translateWithRetry_three]
  unfold firstSuccessIn3
  cases h1 : tr text 1
  · cases h2 : tr text 2
    · cases h3 : tr text 3 <;> rfl
    · rfl
  · rfl

lemma replace1Aux_of_isPrefixOf {old s : Str} (new : Str) (hne : ¬ old = [])
    (h : old.isPrefixOf s = true) : replace1Aux old new s = new ++ s.drop old.length := by
  cases s with
  | nil =>
    obtain ⟨c, t, rfl⟩ := List.exists_cons_of_ne_nil hne
    simp [List.isPrefixOf] at h
  | cons c rest => simp [replace1Aux, h]

/-! ## Claim theorems -/

/-- C1 counterexample: an item whose only subtitle stream in the
target-equivalent set is EXTERNAL is nevertheless classified as already
having the subtitle and is excluded from the needs-subtitle list —
`hasChineseSubtitle` never consults the externality flag, so the claim's
"embedded, non-external" qualification is false on the code. -/
theorem c1_discovery_counterexample :
    hasChineseSubtitle extOnlyItem = true ∧
    extOnlyItem.mediaStreams.all (fun s => s.isExternal) = true ∧
    GetMediaWithoutChineseSubtitles [extOnlyItem] = [] := by
  refine ⟨by decide, by decide, by decide⟩

/-- C1 amended: the Discovery Filter classifies an item as already having
the target subtitle if and only if some stream descriptor of subtitle kind
(external or not) has a language tag in the fixed set
`{zh-TW, zh-Hant, chi}`; the sidecar-file secondary signal never produces a
positive (the existence check is permanently false), and the needs-subtitle
list keeps exactly the items not so classified. -/
theorem c1_discovery_amended (item : MediaItem) (items : List MediaItem) :
    (hasChineseSubtitle item = true ↔
      ∃ s ∈ item.mediaStreams, s.type = "Subtitle".data ∧
        (s.language = "zh-TW".data ∨ s.language = "zh-Hant".data ∨
          s.language = "chi".data)) ∧
    (item ∈ GetMediaWithoutChineseSubtitles items ↔
      item ∈ items ∧ hasChineseSubtitle item = false) := by
  constructor
  · unfold hasChineseSubtitle
    cases hms : item.mediaSources
    · simp [List.any_eq_true, decide_eq_true_eq]
    · simp [List.any_eq_true, decide_eq_true_eq, fileExists]
  · simp [GetMediaWithoutChineseSubtitles, List.mem_filter]

/-- C1 amended, witness: an embedded `zh-Hant` stream is classified as
having the subtitle. -/
theorem c1_discovery_amended_witness : hasChineseSubtitle embeddedItem = true :=
  (c1_discovery_amended embeddedItem []).1.mpr
    ⟨⟨"Subtitle".data, "zh-Hant".data, "subrip".data, false⟩, by decide, by decide, by decide⟩

/-- C2: for every entry list and every translator — including one failing
on every attempt for some entries — `TranslateEntries` returns with a nil
error a list of the same length in which each output entry keeps the input
entry's sequence index, start timestamp and end timestamp exactly, and
whose text is the first successful backend answer among the three attempts
when one exists, and the original untranslated text when all attempts fail;
a failing entry never aborts the batch. -/
theorem c2_translate_entries (entries : List SubtitleEntry) (tr : Translator) :
    TranslateEntries entries tr =
      (entries.map fun e =>
        (⟨e.index, e.startTime, e.endTime, (firstSuccessIn3 tr e.text).getD e.text⟩ :
          SubtitleEntry), none) ∧
    ((TranslateEntries entries tr).1).length = entries.length := by
  have hfun : ∀ e : SubtitleEntry,
      ({ index := e.index, startTime := e.startTime, endTime := e.endTime,
         text := ((translateWithRetry tr e.text 3).result).getD e.text } : SubtitleEntry) =
      ⟨e.index, e.startTime, e.endTime, (firstSuccessIn3 tr e.text).getD e.text⟩ := by
    intro e
    rw [retry_result_eq_firstSuccess]
  have hmap : TranslateEntries entries tr =
      (entries.map fun e =>
        (⟨e.index, e.startTime, e.endTime, (firstSuccessIn3 tr e.text).getD e.text⟩ :
          SubtitleEntry), none) := by
    unfold TranslateEntries
    exact congrArg (fun l => (l, (none : Option Str)))
      (List.map_congr_left fun e _ => hfun e)
  exact ⟨hmap, by rw [hmap]; simp⟩

/-- C3 counterexample: the input `007\n00:00:00,000 --> 00:00:01,000\nhi`
is a single well-formed block per the claim (a leading integer index line,
a timing line of the required shape, one text line), yet `format(parse(x))`
renders the index as `7`: the block is not reproduced byte-for-byte — the
bytes `007` occur nowhere in the output — although no line-ending or
inter-block whitespace is involved. -/
theorem c3_roundtrip_counterexample :
    (Parse x007).1 = [⟨7, "00:00:00,000".data, "00:00:01,000".data, "hi".data⟩] ∧
    Format ((Parse x007).1) = "7\n00:00:00,000 --> 00:00:01,000\nhi\n".data ∧
    containsSLB "007".data (Format ((Parse x007).1)) = false := by
  refine ⟨by decide, by decide, by decide⟩

/-- C3 amended: for every non-empty list of canonical well-formed blocks
(index line equal to the decimal rendering of its value, timing line exactly
`HH:MM:SS,mmm --> HH:MM:SS,mmm`, non-empty text lines free of line
terminators whose joined text neither starts nor ends with whitespace),
`parse` recovers exactly the blocks' entries — preserving entry count,
sequence indices, timestamps and text — and `format(parse(x))` equals `x`
plus one trailing newline, so every block is reproduced byte-for-byte.
For non-canonical well-formed blocks (e.g. a zero-padded index line) the
entry data is still preserved but byte-identity fails. -/
theorem c3_roundtrip_amended (bs : List CanonBlock) (hne : ¬ bs = [])
    (hc : ∀ b ∈ bs, canonBlockOk b) :
    (Parse (canonInput bs)).1 = bs.map canonEntry ∧
    ((Parse (canonInput bs)).1).length = bs.length ∧
    Format ((Parse (canonInput bs)).1) = canonInput bs ++ ['\n'] := by
  have hnorm : normalizeCRLF (canonInput bs) = canonInput bs :=
    normalizeCRLF_eq_self (cr_not_mem_canonInput hc)
  have hparse : (Parse (canonInput bs)).1 = bs.map canonEntry := by
    show ((splitNN (normalizeCRLF (canonInput bs))).filterMap blockParse) = bs.map canonEntry
    rw [hnorm, splitNN_canonInput hne hc, List.filterMap_map]
    exact filterMap_eq_map_of_some _ _ bs (fun b hb => blockParse_canon (hc b hb))
  refine ⟨hparse, by rw [hparse]; simp, ?_⟩
  rw [hparse]
  exact Format_canon hne hc

/-- C3 amended, witness: a concrete two-block canonical document
round-trips byte-for-byte up to the trailing newline. -/
theorem c3_roundtrip_amended_witness :
    (Parse (canonInput [demoBlock1, demoBlock2])).1 =
      [canonEntry demoBlock1, canonEntry demoBlock2] ∧
    Format ((Parse (canonInput [demoBlock1, demoBlock2])).1) =
      canonInput [demoBlock1, demoBlock2] ++ ['\n'] := by
  have h := c3_roundtrip_amended [demoBlock1, demoBlock2] (by decide) (by decide)
  exact ⟨h.1, h.2.2⟩

lemma translateAndSave_writes (env : WebEnv) (s : Subtitle) (vp content : Str)
    (h3 : env.download s = some content) :
    (translateAndSaveSubtitle env s vp).2 =
      [((generateSubtitlePath env.cfg env.fs vp "zh-Hant".data).1,
        Format ((TranslateEntries (Parse content).1 env.translator).1))] := by
  unfold translateAndSaveSubtitle
  rw [h3]
  simp only [Parse, TranslateEntries]
  split <;> rfl

/-- C4: when the target-language (`zh-TW`) search returns zero candidates
and the fallback (`en`) search returns at least one, the handler runs the
translation pipeline — the one file write it attempts carries the parsed,
translated and reformatted content of the downloaded fallback subtitle —
and the response is never 404; when both searches return zero candidates,
the handler responds 404 (not found). -/
theorem c4_fallback_dispatch (env : WebEnv) (q vp : Str) (s : Subtitle)
    (rest : List Subtitle) (content : Str) :
    (env.search q "zh-TW".data = ([], none) → env.search q "en".data = (s :: rest, none) →
      env.download s = some content →
      (ProcessHandlerCore env q vp).2.1 = true ∧
      ¬ (ProcessHandlerCore env q vp).1.status = 404 ∧
      (ProcessHandlerCore env q vp).2.2 =
        [((generateSubtitlePath env.cfg env.fs vp "zh-Hant".data).1,
          Format ((TranslateEntries (Parse content).1 env.translator).1))]) ∧
    (env.search q "zh-TW".data = ([], none) → env.search q "en".data = ([], none) →
      (ProcessHandlerCore env q vp).1 = ⟨404⟩) := by
  constructor
  · intro h1 h2 h3
    have hf1 : FindBestSubtitle env.search q "zh-TW".data =
        (none, some "no subtitles found".data) := by
      unfold FindBestSubtitle; rw [h1]
    have hf2 : FindBestSubtitle env.search q "en".data = (some s, none) := by
      unfold FindBestSubtitle; rw [h2]
    have hwrites := translateAndSave_writes env s vp content h3
    rcases hts : translateAndSaveSubtitle env s vp with ⟨loc, w⟩
    rw [hts] at hwrites
    simp only at hwrites
    cases loc with
    | none =>
      simp only [ProcessHandlerCore, hf1, hf2, hts]
      exact ⟨by trivial, by decide, hwrites⟩
    | some lc =>
      simp only [ProcessHandlerCore, hf1, hf2, hts]
      exact ⟨by trivial, by decide, hwrites⟩
  · intro h1 h2
    have hf1 : FindBestSubtitle env.search q "zh-TW".data =
        (none, some "no subtitles found".data) := by
      unfold FindBestSubtitle; rw [h1]
    have hf2 : FindBestSubtitle env.search q "en".data =
        (none, some "no subtitles found".data) := by
      unfold FindBestSubtitle; rw [h2]
    simp only [ProcessHandlerCore, hf1, hf2]

/-- C4 witness: a provider with one English candidate and no Chinese one
drives the handler through the translation pipeline without a 404; an empty
provider yields 404. -/
theorem c4_fallback_dispatch_witness :
    ((ProcessHandlerCore envFallback "Foo S02E05".data
        "/data/media/Foo/S02E05.mkv".data).2.1 = true ∧
      ¬ (ProcessHandlerCore envFallback "Foo S02E05".data
        "/data/media/Foo/S02E05.mkv".data).1.status = 404) ∧
    (ProcessHandlerCore envEmpty "Foo S02E05".data
      "/data/media/Foo/S02E05.mkv".data).1 = ⟨404⟩ := by
  constructor
  · have h := (c4_fallback_dispatch envFallback "Foo S02E05".data
      "/data/media/Foo/S02E05.mkv".data subExample [] demoSRT).1
      (by decide) (by decide) (by decide)
    exact ⟨h.1, h.2.1⟩
  · exact (c4_fallback_dispatch envEmpty "Foo S02E05".data
      "/data/media/Foo/S02E05.mkv".data subExample [] demoSRT).2
      (by decide) (by decide)

/-- C5: for every video path and language tag, when direct save is enabled
and the writability probe of the mapped media directory succeeds, path
resolution returns the `media` location class with path
`<mappedMediaDir>/<videoBasename>.<languageTag>.srt`; when direct save is
disabled or the probe fails, it returns the staging (`downloads`) location
class with path `<stagingDir>/<videoBasename>.<languageTag>.srt` and issues
the `MkdirAll` call that creates the staging directory if absent. -/
theorem c5_save_path (cfg : Config) (fs : Fs) (videoPath language : Str) :
    (cfg.EnableDirectSave = true →
      canWriteToDirectory fs (goDir (MapJellyfinPathToContainer cfg videoPath)) = true →
      generateSubtitlePath cfg fs videoPath language =
        (goJoin (goDir (MapJellyfinPathToContainer cfg videoPath))
          (goTrimSuffix (goBase videoPath) (goExt videoPath) ++ '.' :: language ++ ".srt".data),
         "media".data, [])) ∧
    ((cfg.EnableDirectSave = false ∨
       canWriteToDirectory fs (goDir (MapJellyfinPathToContainer cfg videoPath)) = false) →
      generateSubtitlePath cfg fs videoPath language =
        (goJoin cfg.SubtitleDirectory
          (goTrimSuffix (goBase videoPath) (goExt videoPath) ++ '.' :: language ++ ".srt".data),
         "downloads".data, [cfg.SubtitleDirectory])) := by
  constructor
  · intro hds hcw
    simp only [generateSubtitlePath]
    rw [if_pos hds, if_pos hcw]
  · intro hor
    simp only [generateSubtitlePath]
    rcases hor with hds | hcw
    · rw [if_neg (by simp [hds])]
    · by_cases hds : cfg.EnableDirectSave
      · rw [if_pos hds, if_neg (by simp [hcw])]
      · rw [if_neg hds]

/-- C5 witness: with the compose-file prefix mapping, a writable filesystem
yields the media-adjacent path, an unwritable one yields the staging path
and a staging-directory creation call. -/
theorem c5_save_path_witness :
    generateSubtitlePath cfgExample fsWritable "/data/media/Foo/S02E05.mkv".data
      "zh-Hant".data = ("/media/Foo/S02E05.zh-Hant.srt".data, "media".data, []) ∧
    generateSubtitlePath cfgExample fsUnwritable "/data/media/Foo/S02E05.mkv".data
      "zh-Hant".data =
      ("./downloads/S02E05.zh-Hant.srt".data, "downloads".data, ["./downloads".data]) := by
  constructor
  · have h := (c5_save_path cfgExample fsWritable "/data/media/Foo/S02E05.mkv".data
      "zh-Hant".data).1 rfl (by decide)
    rw [h]; decide
  · have h := (c5_save_path cfgExample fsUnwritable "/data/media/Foo/S02E05.mkv".data
      "zh-Hant".data).2 (Or.inr (by decide))
    rw [h]; decide

/-- C6: for every entry text the retry loop makes at most 3 backend calls,
sleeps exactly `n - 1` seconds before attempt `n` for every `n ≥ 2` (so the
wait list for `k` attempts is `[1, …, k-1]`: linear, not exponential, not
jittered, no wait before the first attempt), returns the first successful
translation — at the least successful attempt number, all earlier attempts
having failed — and returns an error only after exactly 3 failed
attempts. -/
theorem c6_retry_policy (tr : Translator) (text : Str) :
    (translateWithRetry tr text 3).attempts ≤ 3 ∧
    (translateWithRetry tr text 3).waits =
      (List.range ((translateWithRetry tr text 3).attempts - 1)).map Nat.succ ∧
    (∀ r, (translateWithRetry tr text 3).result = some r →
      ∃ n, 1 ≤ n ∧ n ≤ 3 ∧ tr text n = some r ∧
        (∀ m, 1 ≤ m → m < n → tr text m = none) ∧
        (translateWithRetry tr text 3).attempts = n) ∧
    ((translateWithRetry tr text 3).result = none →
      (translateWithRetry tr text 3).attempts = 3 ∧
      tr text 1 = none ∧ tr text 2 = none ∧ tr text 3 = none) := by
  rw [translateWithRetry_three]
  cases h1 : tr text 1 with
  | some r1 =>
    dsimp only
    refine ⟨by decide, by decide, ?_, ?_⟩
    · intro r hr
      obtain rfl : r1 = r := by simpa using hr
      exact ⟨1, le_rfl, by decide, h1, fun m hm1 hm2 => absurd (lt_of_le_of_lt hm1 hm2)
        (by omega), rfl⟩
    · intro hcon; exact Option.noConfusion hcon
  | none =>
    cases h2 : tr text 2 with
    | some r2 =>
      dsimp only
      refine ⟨by decide, by decide, ?_, ?_⟩
      · intro r hr
        obtain rfl : r2 = r := by simpa using hr
        refine ⟨2, by decide, by decide, h2, ?_, rfl⟩
        intro m hm1 hm2
        obtain rfl : m = 1 := by omega
        exact h1
      · intro hcon; exact Option.noConfusion hcon
    | none =>
      cases h3 : tr text 3 with
      | some r3 =>
        dsimp only
        refine ⟨by decide, by decide, ?_, ?_⟩
        · intro r hr
          obtain rfl : r3 = r := by simpa using hr
          refine ⟨3, by decide, by decide, h3, ?_, rfl⟩
          intro m hm1 hm2
          rcases (by omega : m = 1 ∨ m = 2) with rfl | rfl
          · exact h1
          · exact h2
        · intro hcon; exact Option.noConfusion hcon
      | none =>
        dsimp only
        refine ⟨by decide, by decide, ?_, ?_⟩
        · intro r hr; exact Option.noConfusion hr
        · intro _; exact ⟨rfl, rfl, rfl, rfl⟩

/-- C6 witness: a backend succeeding exactly on the second attempt yields
the result at attempt 2 after one failed attempt. -/
theorem c6_retry_policy_witness :
    (translateWithRetry trSecond "x".data 3).result = some "ok".data ∧
    ∃ n, 1 ≤ n ∧ n ≤ 3 ∧ trSecond "x".data n = some "ok".data ∧
      (∀ m, 1 ≤ m → m < n → trSecond "x".data m = none) ∧
      (translateWithRetry trSecond "x".data 3).attempts = n := by
  have hres : (translateWithRetry trSecond "x".data 3).result = some "ok".data := by decide
  exact ⟨hres, (c6_retry_policy trSecond "x".data).2.2.1 "ok".data hres⟩

/-- C7: the provider search query is
`"<seriesName> S<season:%02d>E<episode:%02d>"` for an episode with a
non-empty series name, `"<name> <year>"` for a movie with a positive
production year, and `"<name>"` alone for a movie without one; for season
and episode numbers below 100 the `%02d` rendering is exactly two
digits. -/
theorem c7_search_query (item : MediaItem) :
    (item.type = "Episode".data → ¬ item.seriesName = [] →
      GetSearchQuery item = item.seriesName ++ ' ' :: 'S' ::
        goSprintf02d item.parentIndexNumber ++ 'E' :: goSprintf02d item.indexNumber) ∧
    (item.type = "Movie".data → 0 < item.productionYear →
      GetSearchQuery item = item.name ++ ' ' :: intToChars item.productionYear) ∧
    (item.type = "Movie".data → ¬ 0 < item.productionYear →
      GetSearchQuery item = item.name) ∧
    (∀ n : Nat, n < 100 →
      (goSprintf02d (n : Int)).length = 2 ∧ (goSprintf02d (n : Int)).all Char.isDigit = true) := by
  refine ⟨?_, ?_, ?_, by decide⟩
  · intro h1 h2
    simp [GetSearchQuery, h1, h2]
  · intro h1 h2
    simp [GetSearchQuery, h1, h2, show ¬ ("Movie".data : Str) = "Episode".data from by decide]
  · intro h1 h2
    simp [GetSearchQuery, h1, h2, show ¬ ("Movie".data : Str) = "Episode".data from by decide]

/-- C7 witness: series "Foo", season 2, episode 5 yields exactly
`Foo S02E05`; movie with year 1995 yields `Heat 1995`; movie without a year
yields `Heat`. -/
theorem c7_search_query_witness :
    GetSearchQuery fooEpisode = "Foo S02E05".data ∧
    GetSearchQuery movieWithYear = "Heat 1995".data ∧
    GetSearchQuery movieNoYear = "Heat".data := by
  refine ⟨?_, ?_, ?_⟩
  · have h := (c7_search_query fooEpisode).1 (by decide) (by decide)
    rw [h]; decide
  · have h := (c7_search_query movieWithYear).2.1 (by decide) (by decide)
    rw [h]; decide
  · have h := (c7_search_query movieNoYear).2.2.1 (by decide) (by decide)
    rw [h]; decide

/-- C8: for every input byte string `Parse` returns a nil error; the result
is exactly the in-order `filterMap` of the per-block parser over the
blank-line-split of the line-ending-normalized input, so malformed blocks
(no integer first line, no timing match on the second line, fewer than
three lines) are silently dropped; and every produced entry stems from a
block of the input, its index being the parsed integer of that block's
first line and its two timestamps being exact `HH:MM:SS,mmm`-shaped
substrings occurring verbatim in the (normalized) input. -/
theorem c8_parse_leniency (content : Str) :
    (Parse content).2 = none ∧
    (Parse content).1 = (splitNN (normalizeCRLF content)).filterMap blockParse ∧
    ∀ e ∈ (Parse content).1,
      (∃ block ∈ splitNN (normalizeCRLF content),
        blockParse block = some e ∧ SubStr block (normalizeCRLF content) ∧
        ∃ l0 l1 ls, splitNL (trimSpace block) = l0 :: l1 :: ls ∧
          goAtoi (trimSpace l0) = some e.index ∧
          findTiming l1 = some (e.startTime, e.endTime)) ∧
      tsShape12 e.startTime = true ∧ tsShape12 e.endTime = true ∧
      SubStr e.startTime (normalizeCRLF content) ∧ SubStr e.endTime (normalizeCRLF content) := by
  refine ⟨rfl, rfl, ?_⟩
  intro e he
  simp only [Parse] at he
  obtain ⟨block, hmem, hbp⟩ := List.mem_filterMap.mp he
  have hsubblock : SubStr block (normalizeCRLF content) := by
    have := mem_joinNN_sub hmem
    rwa [joinNN_splitNN] at this
  obtain ⟨hs1, hs2, hsub1, hsub2, l0, l1, ls, hspl, hatoi, hft⟩ := blockParse_props hbp
  exact ⟨⟨block, hmem, hbp, hsubblock, l0, l1, ls, hspl, hatoi, hft⟩,
    hs1, hs2, subStr_trans hsub1 hsubblock, subStr_trans hsub2 hsubblock⟩

/-- C8 witness: the single entry of a concrete document carries a
shape-exact start timestamp occurring verbatim in the input. -/
theorem c8_parse_leniency_witness :
    tsShape12 demoEntry.startTime = true ∧
    SubStr demoEntry.startTime (normalizeCRLF demoSRT) ∧
    (Parse demoSRT).1 = [demoEntry] := by
  have hp : (Parse demoSRT).1 = [demoEntry] := by decide
  have h := (c8_parse_leniency demoSRT).2.2 demoEntry
    (by rw [hp]; exact List.mem_cons_self demoEntry [])
  exact ⟨h.2.1, h.2.2.2.1, hp⟩

/-- C9: with non-empty configured prefixes, the catalog-to-local path
mapping replaces a leading source prefix with the destination prefix (one
replacement) and passes every other path through unchanged; the mapping is
total and never fails. -/
theorem c9_path_mapping (cfg : Config) (p : Str)
    (h1 : ¬ cfg.JellyfinPathPrefix = []) (h2 : ¬ cfg.ContainerPathPrefix = []) :
    (cfg.JellyfinPathPrefix.isPrefixOf p = true →
      MapJellyfinPathToContainer cfg p =
        cfg.ContainerPathPrefix ++ p.drop cfg.JellyfinPathPrefix.length) ∧
    (cfg.JellyfinPathPrefix.isPrefixOf p = false →
      MapJellyfinPathToContainer cfg p = p) := by
  constructor
  · intro hp
    unfold MapJellyfinPathToContainer
    rw [if_neg (by simp [h1, h2]), if_pos hp]
    unfold goReplace1
    rw [if_neg h1]
    exact replace1Aux_of_isPrefixOf _ h1 hp
  · intro hp
    unfold MapJellyfinPathToContainer
    rw [if_neg (by simp [h1, h2]), if_neg (by simp [hp])]

/-- C9 witness: the compose-file mapping rewrites a matching path and
passes a non-matching path through. -/
theorem c9_path_mapping_witness :
    MapJellyfinPathToContainer cfgExample "/data/media/Foo.mkv".data = "/media/Foo.mkv".data ∧
    MapJellyfinPathToContainer cfgExample "/other/Foo.mkv".data = "/other/Foo.mkv".data := by
  constructor
  · have h := (c9_path_mapping cfgExample "/data/media/Foo.mkv".data
      (by decide) (by decide)).1 (by decide)
    rw [h]; decide
  · exact (c9_path_mapping cfgExample "/other/Foo.mkv".data
      (by decide) (by decide)).2 (by decide)

/-- C10: the query builder never fails and falls back to the item's display
name for an episode with an empty series name and for an item that is
neither an episode nor a movie; the path mapping returns every path
unchanged when either configured prefix is empty. -/
theorem c10_defensive_fallbacks (item : MediaItem) (cfg : Config) (p : Str) :
    (item.type = "Episode".data → item.seriesName = [] →
      GetSearchQuery item = item.name) ∧
    (¬ item.type = "Episode".data → ¬ item.type = "Movie".data →
      GetSearchQuery item = item.name) ∧
    ((cfg.JellyfinPathPrefix = [] ∨ cfg.ContainerPathPrefix = []) →
      MapJellyfinPathToContainer cfg p = p) := by
  refine ⟨?_, ?_, ?_⟩
  · intro h1 h2
    simp [GetSearchQuery, h1, h2]
  · intro h1 h2
    simp [GetSearchQuery, h1, h2]
  · intro h
    unfold MapJellyfinPathToContainer
    rw [if_pos h]

/-- C10 witness: an orphan episode and a season item both fall back to the
display name; an empty source prefix passes the path through. -/
theorem c10_defensive_fallbacks_witness :
    GetSearchQuery orphanEpisode = "Lost One".data ∧
    GetSearchQuery seasonItem = "Season 2".data ∧
    MapJellyfinPathToContainer ⟨"./downloads".data, true, [], "/media".data⟩
      "/a/b.mkv".data = "/a/b.mkv".data := by
  refine ⟨?_, ?_, ?_⟩
  · have h := (c10_defensive_fallbacks orphanEpisode cfgExample []).1 (by decide) (by decide)
    rw [h]; decide
  · have h := (c10_defensive_fallbacks seasonItem cfgExample []).2.1 (by decide) (by decide)
    rw [h]; decide
  · exact (c10_defensive_fallbacks orphanEpisode
      ⟨"./downloads".data, true, [], "/media".data⟩ "/a/b.mkv".data).2.2 (Or.inl rfl)

end SubtitleHunter

